import Mathlib

/-!
# Verification of the BKW vZEV calculator core

A shallow embedding, over exact rationals, of the core computations of the
BKW vZEV calculator (CSV normalisation, data-quality gating, capped
proportional solar allocation, billing).  Python floats are modelled as
exact rationals; Python's `round` (banker's rounding) is modelled on the
decimal value.  Each section names the source file and function it embeds.
-/

namespace Vzev

/-! ## Python rounding

`pyRound` models Python's built-in `round` to zero decimal places:
round-half-to-even.  `round2`/`round6` model `round(x, 2)` / `round(x, 6)`.
-/

def pyRound (x : ℚ) : ℤ :=
  let f : ℤ := x.floor
  if x - f < 1/2 then f
  else if 1/2 < x - f then f + 1
  else if f % 2 = 0 then f else f + 1

theorem rat_floor_eq_floor (x : ℚ) : x.floor = ⌊x⌋ := by
  rw [Rat.floor_def' x, Rat.floor_def]

def round2 (x : ℚ) : ℚ := (pyRound (x * 100) : ℚ) / 100

def round6 (x : ℚ) : ℚ := (pyRound (x * 1000000) : ℚ) / 1000000

def round0 (x : ℚ) : ℚ := (pyRound x : ℚ)

theorem pyRound_sub_le (x : ℚ) : |((pyRound x : ℚ)) - x| ≤ 1/2 := by
  unfold pyRound
  simp only [rat_floor_eq_floor]
  have hfl : (⌊x⌋ : ℚ) ≤ x := Int.floor_le x
  have hfu : x < (⌊x⌋ : ℚ) + 1 := Int.lt_floor_add_one x
  by_cases h1 : x - (⌊x⌋ : ℚ) < 1/2
  · simp only [h1, if_true]
    rw [abs_le]
    constructor <;> linarith
  · by_cases h2 : (1:ℚ)/2 < x - (⌊x⌋ : ℚ)
    · simp only [h1, h2, if_false, if_true]
      push_cast
      rw [abs_le]
      constructor <;> linarith
    · by_cases h3 : (⌊x⌋ : ℤ) % 2 = 0
      · simp only [h1, h2, h3, if_false, if_true]
        rw [abs_le]
        constructor <;> linarith
      · simp only [h1, h2, h3, if_false]
        push_cast
        rw [abs_le]
        constructor <;> linarith

theorem round6_sub_le (x : ℚ) : |round6 x - x| ≤ 1/2000000 := by
  unfold round6
  have h := pyRound_sub_le (x * 1000000)
  rw [abs_le] at h ⊢
  constructor <;> [linarith [h.1]; linarith [h.2]]

theorem round6_nonneg {x : ℚ} (hx : 0 ≤ x) : 0 ≤ round6 x := by
  unfold round6
  have : (0:ℤ) ≤ pyRound (x * 1000000) := by
    unfold pyRound
    simp only [rat_floor_eq_floor]
    have hfl : (0:ℤ) ≤ ⌊x * 1000000⌋ := Int.floor_nonneg.2 (by positivity)
    split
    · exact hfl
    · split
      · omega
      · split
        · exact hfl
        · omega
  positivity

theorem round6_zero : round6 0 = 0 := by
  unfold round6 pyRound
  simp only [rat_floor_eq_floor]
  norm_num

/-! ## Custom fees — src/billing.py, `calculate_bills_for_period` lines 262–295

A member's ordered fee list is folded left-to-right over a running total
that starts at the period's energy cost; each fee amount is rounded to two
decimals and added to the running total before the next fee is computed.
Fee and basis kinds are the literal strings compared in the source.
-/

structure CustomFee where
  value : ℚ
  fee_type : String
  basis : String
  deriving DecidableEq, Repr, Inhabited

/-- The unrounded amount of one fee, given the running total so far
(source lines 273–283). -/
def fee_formula (fee : CustomFee) (local_kwh grid_kwh : ℚ) (num_months : ℕ)
    (running_total : ℚ) : ℚ :=
  if fee.fee_type = "yearly" then fee.value / 12 * num_months
  else if fee.fee_type = "per_kwh" then
    (if fee.basis = "local" then fee.value * local_kwh else fee.value * grid_kwh)
  else fee.value / 100 * running_total

/-- The rounded fee amounts, in order, threading the running total
(source lines 270–287: `running_total` starts at `total_cost` and grows by
each rounded fee amount). -/
def fee_amounts (local_kwh grid_kwh : ℚ) (num_months : ℕ) :
    List CustomFee → ℚ → List ℚ
  | [], _ => []
  | fee :: rest, running_total =>
      let amt := round2 (fee_formula fee local_kwh grid_kwh num_months running_total)
      amt :: fee_amounts local_kwh grid_kwh num_months rest (running_total + amt)

/-- All fee amounts of a member for a period, starting from the energy cost. -/
def calculate_fees (total_cost local_kwh grid_kwh : ℚ) (num_months : ℕ)
    (fees : List CustomFee) : List ℚ :=
  fee_amounts local_kwh grid_kwh num_months fees total_cost

theorem fee_amounts_getD (local_kwh grid_kwh : ℚ) (num_months : ℕ) :
    ∀ (fees : List CustomFee) (running_total : ℚ) (i : ℕ), i < fees.length →
      (fee_amounts local_kwh grid_kwh num_months fees running_total).getD i 0 =
        round2 (fee_formula (fees.getD i default) local_kwh grid_kwh num_months
          (running_total +
            ((fee_amounts local_kwh grid_kwh num_months fees running_total).take i).sum)) := by
  intro fees
  induction fees with
  | nil => intro r i hi; simp at hi
  | cons fee rest ih =>
      intro r i hi
      cases i with
      | zero => simp [fee_amounts]
      | succ j =>
          have hj : j < rest.length := by simpa using hi
          have := ih (r + round2 (fee_formula fee local_kwh grid_kwh num_months r)) j hj
          simp only [fee_amounts, List.getD_cons_succ, List.take_succ_cons, List.sum_cons]
          rw [this]
          ring_nf

/-! ## Billing-period grouping — src/main.py, `_group_months_by_interval` -/

/-- Quarter key: `(year, (month − 1) // 3)` (Python floor division). -/
def period_key_quarterly (ym : ℕ × ℕ) : ℕ × ℤ := (ym.1, Int.fdiv ((ym.2 : ℤ) - 1) 3)

def period_key_semi_annual (ym : ℕ × ℕ) : ℕ × ℤ := (ym.1, if ym.2 ≤ 6 then 0 else 1)

def period_key_annual (ym : ℕ × ℕ) : ℕ × ℤ := (ym.1, 0)

/-- The grouping loop of `_group_months_by_interval` (source lines 62–78):
walks the month list, flushing the current group whenever the period key
changes. -/
def group_go (key : ℕ × ℕ → ℕ × ℤ) :
    List (ℕ × ℕ) → List (List (ℕ × ℕ)) → List (ℕ × ℕ) → Option (ℕ × ℤ) →
      List (List (ℕ × ℕ))
  | [], groups, cur, _ => if cur = [] then groups else groups ++ [cur]
  | ym :: rest, groups, cur, ck =>
      if some (key ym) ≠ ck then
        group_go key rest (if cur = [] then groups else groups ++ [cur]) [ym] (some (key ym))
      else
        group_go key rest groups (cur ++ [ym]) ck

/-- `_group_months_by_interval` (src/main.py lines 27–79). -/
def group_months_by_interval (months : List (ℕ × ℕ)) (interval : String) :
    List (List (ℕ × ℕ)) :=
  if months = [] then []
  else if interval = "monthly" then months.map (fun m => [m])
  else if interval = "quarterly" then group_go period_key_quarterly months [] [] none
  else if interval = "semi_annual" then group_go period_key_semi_annual months [] [] none
  else if interval = "annual" then group_go period_key_annual months [] [] none
  else months.map (fun m => [m])

theorem group_go_nil (key : ℕ × ℕ → ℕ × ℤ) (groups : List (List (ℕ × ℕ)))
    (cur : List (ℕ × ℕ)) (ck : Option (ℕ × ℤ)) :
    group_go key [] groups cur ck = if cur = [] then groups else groups ++ [cur] := rfl

theorem group_go_cons (key : ℕ × ℕ → ℕ × ℤ) (ym : ℕ × ℕ) (rest : List (ℕ × ℕ))
    (groups : List (List (ℕ × ℕ))) (cur : List (ℕ × ℕ)) (ck : Option (ℕ × ℤ)) :
    group_go key (ym :: rest) groups cur ck =
      if some (key ym) ≠ ck then
        group_go key rest (if cur = [] then groups else groups ++ [cur]) [ym] (some (key ym))
      else group_go key rest groups (cur ++ [ym]) ck := rfl

theorem group_go_spec (key : ℕ × ℕ → ℕ × ℤ) :
    ∀ (l : List (ℕ × ℕ)) (groups : List (List (ℕ × ℕ))) (cur : List (ℕ × ℕ))
      (ck : Option (ℕ × ℤ)),
      (∀ g ∈ groups, g ≠ [] ∧ ∀ a ∈ g, ∀ b ∈ g, key a = key b) →
      (∀ x ∈ cur, some (key x) = ck) →
      (∀ g ∈ group_go key l groups cur ck,
          g ≠ [] ∧ ∀ a ∈ g, ∀ b ∈ g, key a = key b) ∧
      (group_go key l groups cur ck).flatten = groups.flatten ++ cur ++ l := by
  intro l
  induction l with
  | nil =>
      intro groups cur ck hg hc
      rw [group_go_nil]
      by_cases hcur : cur = []
      · rw [if_pos hcur]
        subst hcur
        exact ⟨hg, by simp⟩
      · rw [if_neg hcur]
        constructor
        · intro g hgmem
          rcases List.mem_append.1 hgmem with h | h
          · exact hg g h
          · have hgc : g = cur := by simpa using h
            subst hgc
            refine ⟨hcur, ?_⟩
            intro a ha b hb
            have h1 := hc a ha
            have h2 := hc b hb
            rw [← h2] at h1
            exact Option.some_injective _ h1
        · simp
  | cons ym rest ih =>
      intro groups cur ck hg hc
      rw [group_go_cons]
      by_cases hk : some (key ym) ≠ ck
      · rw [if_pos hk]
        have hsame : ∀ g, g = cur → cur ≠ [] → (g ≠ [] ∧ ∀ a ∈ g, ∀ b ∈ g, key a = key b) := by
          intro g hgc hcur
          subst hgc
          refine ⟨hcur, ?_⟩
          intro a ha b hb
          have h1 := hc a ha
          have h2 := hc b hb
          rw [← h2] at h1
          exact Option.some_injective _ h1
        by_cases hcur : cur = []
        · rw [if_pos hcur]
          subst hcur
          have hmain := ih groups [ym] (some (key ym)) hg
            (by intro x hx; simp at hx; simp [hx])
          refine ⟨hmain.1, ?_⟩
          rw [hmain.2]; simp
        · rw [if_neg hcur]
          have hg' : ∀ g ∈ groups ++ [cur], g ≠ [] ∧ ∀ a ∈ g, ∀ b ∈ g, key a = key b := by
            intro g hgmem
            rcases List.mem_append.1 hgmem with h | h
            · exact hg g h
            · exact hsame g (by simpa using h) hcur
          have hmain := ih (groups ++ [cur]) [ym] (some (key ym)) hg'
            (by intro x hx; simp at hx; simp [hx])
          refine ⟨hmain.1, ?_⟩
          rw [hmain.2]; simp
      · rw [if_neg hk]
        have hkeq : some (key ym) = ck := not_ne_iff.mp hk
        have hc' : ∀ x ∈ cur ++ [ym], some (key x) = ck := by
          intro x hx
          rcases List.mem_append.1 hx with h | h
          · exact hc x h
          · have hxy : x = ym := by simpa using h
            subst hxy; exact hkeq
        have hmain := ih groups (cur ++ [ym]) ck hg hc'
        refine ⟨hmain.1, ?_⟩
        rw [hmain.2]; simp

unseal Rat.mul Rat.inv Rat.add Rat.sub in
/-- C4 — Fee ordering cascade: a `percent` fee is computed on the running
total (energy cost plus all previously applied, rounded fee amounts), so a
10% fee after a 120 CHF/year yearly fee over one month on a 100 CHF base
yields 11.00 CHF; yearly fees are (value/12) × months and per_kwh fees are
rate × the configured basis, as captured by `fee_formula`. -/
theorem fee_ordering_cascade :
    calculate_fees 100 0 0 1
        [⟨120, "yearly", "grid"⟩, ⟨10, "percent", "grid"⟩] = [10, 11] ∧
    (∀ (total_cost local_kwh grid_kwh : ℚ) (num_months : ℕ)
        (fees : List CustomFee) (i : ℕ), i < fees.length →
      (calculate_fees total_cost local_kwh grid_kwh num_months fees).getD i 0 =
        round2 (fee_formula (fees.getD i default) local_kwh grid_kwh num_months
          (total_cost +
            ((calculate_fees total_cost local_kwh grid_kwh num_months fees).take i).sum))) := by
  constructor
  · decide
  · intro total_cost local_kwh grid_kwh num_months fees i hi
    exact fee_amounts_getD local_kwh grid_kwh num_months fees total_cost i hi

theorem fee_ordering_cascade_witness :
    (calculate_fees 100 0 0 1
        [⟨120, "yearly", "grid"⟩, ⟨10, "percent", "grid"⟩]).getD 1 0 =
      round2 (fee_formula (⟨10, "percent", "grid"⟩ : CustomFee) 0 0 1
        (100 + ((calculate_fees 100 0 0 1
          [⟨120, "yearly", "grid"⟩, ⟨10, "percent", "grid"⟩]).take 1).sum)) :=
  fee_ordering_cascade.2 100 0 0 1
    [⟨120, "yearly", "grid"⟩, ⟨10, "percent", "grid"⟩] 1 (by decide)

/-- C7 — Quarterly grouping: the six months 2025-01 … 2025-06 form exactly
the two groups Q1 and Q2; in general the quarterly grouping partitions the
input month list into non-empty runs on which the pure key
`(year, (month−1)//3)` is constant. -/
theorem quarterly_grouping :
    group_months_by_interval
        [(2025,1),(2025,2),(2025,3),(2025,4),(2025,5),(2025,6)] "quarterly" =
      [[(2025,1),(2025,2),(2025,3)], [(2025,4),(2025,5),(2025,6)]] ∧
    (∀ months : List (ℕ × ℕ),
      (group_months_by_interval months "quarterly").flatten = months ∧
      ∀ g ∈ group_months_by_interval months "quarterly",
        g ≠ [] ∧ ∀ a ∈ g, ∀ b ∈ g, period_key_quarterly a = period_key_quarterly b) := by
  constructor
  · decide
  · intro months
    by_cases hm : months = []
    · subst hm
      constructor
      · simp [group_months_by_interval]
      · intro g hgmem
        simp [group_months_by_interval] at hgmem
    · have hq : group_months_by_interval months "quarterly" =
          group_go period_key_quarterly months [] [] none := by
        rw [group_months_by_interval, if_neg hm]
        rfl
      have hspec := group_go_spec period_key_quarterly months [] [] none
        (by intro g hgmem; simp at hgmem) (by intro x hx; simp at hx)
      rw [hq]
      exact ⟨by rw [hspec.2]; simp, hspec.1⟩

theorem quarterly_grouping_witness :
    (group_months_by_interval [(2024,11),(2024,12)] "quarterly").flatten =
      [(2024,11),(2024,12)] :=
  (quarterly_grouping.2 [(2024,11),(2024,12)]).1

/-! ## Capped proportional allocation — src/allocation.py, `allocate_month`

The per-timestamp-group core (source lines 109–168).  A state holds, per
member (in dict insertion order), the pair `(member_local, demand)` plus the
remaining production pool.  One `pass_step` is one `for mid in
list(demand.keys())` sweep; `allocation_loop` is the `while` loop with an
explicit fuel bound (the source has none, which is what claim C6 is about:
any sufficiently large fuel reaches the exit condition and the state is
then stable).
-/

/-- `_EPSILON = 1e-9` (allocation.py line 25). -/
def EPSILON : ℚ := 1/1000000000

/-- `_BALANCE_EPSILON = 1e-6` (allocation.py line 26). -/
def BALANCE_EPSILON : ℚ := 1/1000000

structure AllocState where
  entries : List (ℚ × ℚ)
  remaining : ℚ
  deriving DecidableEq, Repr

/-- `open_total = sum(d for d in demand.values() if d > _EPSILON)` (line 148). -/
def open_total (es : List (ℚ × ℚ)) : ℚ :=
  ((es.filter fun e => EPSILON < e.2).map fun e => e.2).sum

/-- One sweep of the inner `for` loop (lines 152–161): entries with demand
at most epsilon are skipped; otherwise `actual = min(d / open_total *
remaining, d)` is credited to the member and removed from both its demand
and the pool.  `T` is the pass-start `open_total`; `r` is the live pool. -/
def pass_step (T : ℚ) (r : ℚ) : List (ℚ × ℚ) → List (ℚ × ℚ) × ℚ
  | [] => ([], r)
  | e :: rest =>
      if e.2 ≤ EPSILON then
        let p := pass_step T r rest
        (e :: p.1, p.2)
      else
        let actual := min (e.2 / T * r) e.2
        let p := pass_step T (r - actual) rest
        ((e.1 + actual, e.2 - actual) :: p.1, p.2)

/-- `any(d > _EPSILON for d in demand.values())`. -/
def any_open (es : List (ℚ × ℚ)) : Bool := es.any fun e => decide (EPSILON < e.2)

/-- The `while` condition (line 147). -/
def loop_cond (st : AllocState) : Prop :=
  EPSILON < st.remaining ∧ any_open st.entries = true

instance (st : AllocState) : Decidable (loop_cond st) := by
  unfold loop_cond; infer_instance

/-- The loop body: compute `open_total`, break if it is at most epsilon
(lines 148–150 — dead code for non-negative demands), else sweep. -/
def one_pass (st : AllocState) : AllocState :=
  let T := open_total st.entries
  let p := pass_step T st.remaining st.entries
  ⟨p.1, p.2⟩

/-- The `while` loop (lines 147–161) with explicit fuel. -/
def allocation_loop : ℕ → AllocState → AllocState
  | 0, st => st
  | n + 1, st =>
      if loop_cond st then
        if open_total st.entries ≤ EPSILON then st
        else allocation_loop n (one_pass st)
      else st

/-- The loop has exited: the `while` condition is false. -/
def loop_done (st : AllocState) : Prop := ¬ loop_cond st

instance (st : AllocState) : Decidable (loop_done st) := by
  unfold loop_done; infer_instance

/-- Per-interval state before the loop: `member_local` all zero, demand is a
copy of the members' physical consumption, pool is total physical
production (lines 136, 144–145). -/
def init_state (cons : List ℚ) (production : ℚ) : AllocState :=
  ⟨cons.map fun c => ((0 : ℚ), c), production⟩

/-- The per-timestamp-group local allocation (lines 136–162): full demand
when production covers consumption, the capped proportional loop when both
are positive, zero otherwise.  Returns each member's `member_local`. -/
def allocate_interval (cons : List ℚ) (production : ℚ) (fuel : ℕ) : List ℚ :=
  if 0 < cons.sum ∧ cons.sum ≤ production then cons
  else if 0 < cons.sum ∧ 0 < production then
    (allocation_loop fuel (init_state cons production)).entries.map fun e => e.1
  else cons.map fun _ => 0

/-- `member_bkw[mid] = max(0.0, cons - local)` (lines 165–168). -/
def member_bkw (cons locs : List ℚ) : List ℚ :=
  List.zipWith (fun c l => max 0 (c - l)) cons locs

def sum_fst (es : List (ℚ × ℚ)) : ℚ := (es.map fun e => e.1).sum

def sum_snd (es : List (ℚ × ℚ)) : ℚ := (es.map fun e => e.2).sum

/-- Count of members with open (greater-than-epsilon) demand. -/
def open_count (es : List (ℚ × ℚ)) : ℕ := es.countP fun e => decide (EPSILON < e.2)

theorem open_le_open_total {es : List (ℚ × ℚ)} {e : ℚ × ℚ} (he : e ∈ es)
    (hopen : EPSILON < e.2) : e.2 ≤ open_total es := by
  unfold open_total
  have hmem : e.2 ∈ (es.filter fun e => EPSILON < e.2).map fun e => e.2 :=
    List.mem_map_of_mem _ (List.mem_filter.2 ⟨he, by simpa using hopen⟩)
  refine List.single_le_sum ?_ _ hmem
  intro x hx
  rcases List.mem_map.1 hx with ⟨e', he', rfl⟩
  have := (List.mem_filter.1 he').2
  have hlt : EPSILON < e'.2 := by simpa using this
  have heps : (0:ℚ) < EPSILON := by norm_num [EPSILON]
  linarith

theorem open_total_nonneg (es : List (ℚ × ℚ)) : 0 ≤ open_total es := by
  unfold open_total
  refine List.sum_nonneg ?_
  intro x hx
  rcases List.mem_map.1 hx with ⟨e', he', rfl⟩
  have := (List.mem_filter.1 he').2
  have hlt : EPSILON < e'.2 := by simpa using this
  have heps : (0:ℚ) < EPSILON := by norm_num [EPSILON]
  linarith

theorem any_open_total {es : List (ℚ × ℚ)} (h : any_open es = true) :
    EPSILON < open_total es := by
  unfold any_open at h
  rcases List.any_eq_true.1 h with ⟨e, he, hlt⟩
  have hlt' : EPSILON < e.2 := of_decide_eq_true hlt
  exact lt_of_lt_of_le hlt' (open_le_open_total he hlt')

/-- What one sweep does to the state: the pool never grows and stays
non-negative, pool plus allocated total is conserved, and entrywise the
local+demand total is conserved, skipped entries are untouched, and open
entries keep a non-negative, non-increased demand and a non-decreased
local share. -/
theorem pass_step_spec (T : ℚ) (hT : 0 < T) :
    ∀ (es : List (ℚ × ℚ)) (r : ℚ), 0 ≤ r →
      (∀ e ∈ es, EPSILON < e.2 → e.2 ≤ T) →
      0 ≤ (pass_step T r es).2 ∧ (pass_step T r es).2 ≤ r ∧
      sum_fst (pass_step T r es).1 + (pass_step T r es).2 = sum_fst es + r ∧
      List.Forall₂ (fun e e' : ℚ × ℚ =>
        e'.1 + e'.2 = e.1 + e.2 ∧
        (e.2 ≤ EPSILON → e' = e) ∧
        (EPSILON < e.2 → 0 ≤ e'.2 ∧ e'.2 ≤ e.2 ∧ e.1 ≤ e'.1)) es (pass_step T r es).1 := by
  intro es
  induction es with
  | nil =>
      intro r hr _
      exact ⟨hr, le_rfl, by simp [pass_step, sum_fst], by simp [pass_step]⟩
  | cons e rest ih =>
      intro r hr hbound
      by_cases hskip : e.2 ≤ EPSILON
      · have heq : pass_step T r (e :: rest) =
            ((e :: (pass_step T r rest).1, (pass_step T r rest).2)) := by
          simp [pass_step, hskip]
        have hrest := ih r hr (fun x hx => hbound x (List.mem_cons_of_mem e hx))
        rw [heq]
        refine ⟨hrest.1, hrest.2.1, ?_, ?_⟩
        · have := hrest.2.2.1
          simp only [sum_fst, List.map_cons, List.sum_cons] at this ⊢
          linarith
        · exact List.Forall₂.cons
            ⟨rfl, fun _ => rfl, fun hop => absurd hop (not_lt.2 hskip)⟩ hrest.2.2.2
      · push_neg at hskip
        have hd0 : 0 ≤ e.2 := by
          have heps : (0:ℚ) < EPSILON := by norm_num [EPSILON]
          linarith
        have hdT : e.2 ≤ T := hbound e (List.mem_cons_self e rest) hskip
        set actual := min (e.2 / T * r) e.2 with hactual
        have hact0 : 0 ≤ actual := le_min (by positivity) hd0
        have hactr : actual ≤ r := by
          have h1 : e.2 / T * r ≤ r := by
            have h2 : e.2 / T ≤ 1 := (div_le_one hT).2 hdT
            calc e.2 / T * r ≤ 1 * r := by
                  exact mul_le_mul_of_nonneg_right h2 hr
            _ = r := one_mul r
          exact le_trans (min_le_left _ _) h1
        have hr2 : 0 ≤ r - actual := by linarith
        have heq : pass_step T r (e :: rest) =
            (((e.1 + actual, e.2 - actual) :: (pass_step T (r - actual) rest).1,
              (pass_step T (r - actual) rest).2)) := by
          simp only [pass_step, if_neg (not_le.2 hskip)]
        have hrest := ih (r - actual) hr2 (fun x hx => hbound x (List.mem_cons_of_mem e hx))
        rw [heq]
        refine ⟨hrest.1, by linarith [hrest.2.1], ?_, ?_⟩
        · have := hrest.2.2.1
          simp only [sum_fst, List.map_cons, List.sum_cons] at this ⊢
          linarith
        · refine List.Forall₂.cons ?_ hrest.2.2.2
          have hactd : actual ≤ e.2 := min_le_right _ _
          refine ⟨?_, fun hle => absurd hskip (not_lt.2 hle), fun _ => ⟨?_, ?_, ?_⟩⟩
          · dsimp only; ring
          · dsimp only; linarith
          · dsimp only; linarith
          · dsimp only; linarith

theorem forall₂_comp {α β γ : Type} {P : α → β → Prop} {Q : β → γ → Prop}
    {R : α → γ → Prop} (h : ∀ a b c, P a b → Q b c → R a c) :
    ∀ {l₁ : List α} {l₂ : List β} {l₃ : List γ},
      List.Forall₂ P l₁ l₂ → List.Forall₂ Q l₂ l₃ → List.Forall₂ R l₁ l₃ := by
  intro l₁ l₂ l₃ h₁
  induction h₁ generalizing l₃ with
  | nil =>
      intro h₂
      cases h₂
      exact List.Forall₂.nil
  | cons hab htail ih =>
      intro h₂
      cases h₂ with
      | cons hbc htail₂ => exact List.Forall₂.cons (h _ _ _ hab hbc) (ih htail₂)

/-- The loop invariant relative to the interval's inputs: non-negative pool,
allocated + pool = total production, and entrywise local + demand = that
member's consumption with both parts non-negative. -/
def st_inv (cons : List ℚ) (production : ℚ) (st : AllocState) : Prop :=
  0 ≤ st.remaining ∧ sum_fst st.entries + st.remaining = production ∧
  List.Forall₂ (fun c (e : ℚ × ℚ) => e.1 + e.2 = c ∧ 0 ≤ e.1 ∧ 0 ≤ e.2) cons st.entries

theorem st_inv_init {cons : List ℚ} {production : ℚ}
    (hc : ∀ c ∈ cons, 0 ≤ c) (hp : 0 ≤ production) :
    st_inv cons production (init_state cons production) := by
  refine ⟨hp, ?_, ?_⟩
  · have hz : sum_fst (cons.map fun c => ((0:ℚ), c)) = 0 := by
      unfold sum_fst
      rw [List.map_map]
      refine List.sum_eq_zero ?_
      intro x hx
      rcases List.mem_map.1 hx with ⟨c, -, rfl⟩
      rfl
    simpa [init_state] using hz
  · show List.Forall₂ _ cons (cons.map fun c => ((0:ℚ), c))
    rw [List.forall₂_map_right_iff]
    rw [List.forall₂_same]
    intro c hc'
    exact ⟨by simp, le_rfl, hc c hc'⟩

theorem st_inv_one_pass {cons : List ℚ} {production : ℚ} {st : AllocState}
    (hinv : st_inv cons production st) (hcond : loop_cond st) :
    st_inv cons production (one_pass st) := by
  have hT : 0 < open_total st.entries := by
    have h1 := any_open_total hcond.2
    have heps : (0:ℚ) < EPSILON := by norm_num [EPSILON]
    linarith
  have hbound : ∀ e ∈ st.entries, EPSILON < e.2 → e.2 ≤ open_total st.entries :=
    fun e he hop => open_le_open_total he hop
  have hspec := pass_step_spec (open_total st.entries) hT st.entries st.remaining hinv.1 hbound
  refine ⟨hspec.1, ?_, ?_⟩
  · show sum_fst (pass_step _ _ _).1 + (pass_step _ _ _).2 = production
    rw [hspec.2.2.1]
    exact hinv.2.1
  · show List.Forall₂ _ cons (pass_step _ _ _).1
    refine forall₂_comp ?_ hinv.2.2 hspec.2.2.2
    rintro c e e' ⟨hsum, hl0, hd0⟩ ⟨hsum', hskip, hopen⟩
    by_cases hcase : e.2 ≤ EPSILON
    · rw [hskip hcase]
      exact ⟨hsum, hl0, hd0⟩
    · push_neg at hcase
      obtain ⟨hd0', hdle, hlle⟩ := hopen hcase
      exact ⟨by rw [hsum']; exact hsum, le_trans hl0 hlle, hd0'⟩

theorem allocation_loop_step {st : AllocState} (hcond : loop_cond st) (n : ℕ) :
    allocation_loop (n + 1) st = allocation_loop n (one_pass st) := by
  have hT : EPSILON < open_total st.entries := any_open_total hcond.2
  simp only [allocation_loop, if_pos hcond, if_neg (not_le.2 hT)]

theorem allocation_loop_not_cond {st : AllocState} (h : ¬ loop_cond st) (n : ℕ) :
    allocation_loop n st = st := by
  cases n with
  | zero => rfl
  | succ m => simp only [allocation_loop, if_neg h]

theorem st_inv_loop {cons : List ℚ} {production : ℚ} (n : ℕ) :
    ∀ {st : AllocState}, st_inv cons production st →
      st_inv cons production (allocation_loop n st) := by
  induction n with
  | zero => intro st h; exact h
  | succ m ih =>
      intro st h
      by_cases hcond : loop_cond st
      · rw [allocation_loop_step hcond]
        exact ih (st_inv_one_pass h hcond)
      · rw [allocation_loop_not_cond hcond]
        exact h

theorem loop_done_cases {st : AllocState} (h : loop_done st) :
    st.remaining ≤ EPSILON ∨ ∀ e ∈ st.entries, e.2 ≤ EPSILON := by
  unfold loop_done loop_cond at h
  push_neg at h
  by_cases hr : EPSILON < st.remaining
  · right
    have hfalse : any_open st.entries ≠ true := h hr
    have : any_open st.entries = false := by
      cases hv : any_open st.entries
      · rfl
      · exact absurd hv hfalse
    unfold any_open at this
    intro e he
    have := List.any_eq_false.1 this e he
    simpa using this
  · left; linarith [not_lt.1 hr]

theorem forall₂_inv_sum {cons : List ℚ} {es : List (ℚ × ℚ)}
    (h : List.Forall₂ (fun c (e : ℚ × ℚ) => e.1 + e.2 = c ∧ 0 ≤ e.1 ∧ 0 ≤ e.2) cons es) :
    sum_fst es + sum_snd es = cons.sum := by
  induction h with
  | nil => simp [sum_fst, sum_snd]
  | cons hce htail ih =>
      simp only [sum_fst, sum_snd, List.map_cons, List.sum_cons] at ih ⊢
      have := hce.1
      linarith

theorem member_bkw_eq_sub {cons locs : List ℚ}
    (h : List.Forall₂ (fun c l => l ≤ c) cons locs) :
    member_bkw cons locs = List.zipWith (fun c l => c - l) cons locs := by
  unfold member_bkw
  induction h with
  | nil => rfl
  | cons hcl htail ih =>
      simp only [List.zipWith_cons_cons]
      rw [ih, max_eq_right (by linarith)]

theorem sum_zipWith_sub {cons locs : List ℚ}
    (h : List.Forall₂ (fun c l => l ≤ c) cons locs) :
    (List.zipWith (fun c l => c - l) cons locs).sum = cons.sum - locs.sum := by
  induction h with
  | nil => simp
  | cons hcl htail ih =>
      simp only [List.zipWith_cons_cons, List.sum_cons]
      rw [ih]
      ring

/-- Capping invariant at any fuel: each member's local share is between 0
and that member's consumption. -/
theorem allocate_interval_forall₂ (cons : List ℚ) (production : ℚ) (fuel : ℕ)
    (hc : ∀ c ∈ cons, 0 ≤ c) (hp : 0 ≤ production) :
    List.Forall₂ (fun c l => l ≤ c ∧ 0 ≤ l) cons (allocate_interval cons production fuel) := by
  unfold allocate_interval
  by_cases h1 : 0 < cons.sum ∧ cons.sum ≤ production
  · rw [if_pos h1]
    rw [List.forall₂_same]
    intro c hc'
    exact ⟨le_rfl, hc c hc'⟩
  · rw [if_neg h1]
    by_cases h2 : 0 < cons.sum ∧ 0 < production
    · rw [if_pos h2]
      have hinv := st_inv_loop fuel (st_inv_init hc hp)
      have hf := hinv.2.2
      rw [List.forall₂_map_right_iff]
      refine List.Forall₂.imp ?_ hf
      rintro c e ⟨hsum, hl0, hd0⟩
      exact ⟨by linarith, hl0⟩
    · rw [if_neg h2]
      rw [List.forall₂_map_right_iff]
      rw [List.forall₂_same]
      intro c hc'
      exact ⟨hc c hc', le_rfl⟩

theorem mem_member_bkw_nonneg (cons : List ℚ) :
    ∀ (locs : List ℚ), ∀ b ∈ member_bkw cons locs, 0 ≤ b := by
  unfold member_bkw
  induction cons with
  | nil => intro locs b hb; simp at hb
  | cons c cs ih =>
      intro locs b hb
      cases locs with
      | nil => simp at hb
      | cons l ls =>
          rw [List.zipWith_cons_cons] at hb
          rcases List.mem_cons.1 hb with h | h
          · subst h; exact le_max_left 0 _
          · exact ih ls b h

/-- C2 — Capping: at every interval and every fuel, each member's computed
local allocation never exceeds that member's own physical consumption, and
the per-member grid (bkw) consumption `max(0, cons − local)` equals
`cons − local` exactly and is non-negative. -/
theorem allocate_interval_capping (cons : List ℚ) (production : ℚ) (fuel : ℕ)
    (hc : ∀ c ∈ cons, 0 ≤ c) (hp : 0 ≤ production) :
    List.Forall₂ (fun c l => l ≤ c ∧ 0 ≤ l) cons (allocate_interval cons production fuel) ∧
    member_bkw cons (allocate_interval cons production fuel) =
      List.zipWith (fun c l => c - l) cons (allocate_interval cons production fuel) ∧
    ∀ b ∈ member_bkw cons (allocate_interval cons production fuel), 0 ≤ b := by
  have hf := allocate_interval_forall₂ cons production fuel hc hp
  have hle : List.Forall₂ (fun c l => l ≤ c) cons (allocate_interval cons production fuel) :=
    List.Forall₂.imp (fun c l h => h.1) hf
  exact ⟨hf, member_bkw_eq_sub hle, mem_member_bkw_nonneg cons _⟩

theorem allocate_interval_capping_witness :
    List.Forall₂ (fun c l => l ≤ c ∧ 0 ≤ l) [1, 2] (allocate_interval [1, 2] 5 0) ∧
    member_bkw [1, 2] (allocate_interval [1, 2] 5 0) =
      List.zipWith (fun c l => c - l) [1, 2] (allocate_interval [1, 2] 5 0) ∧
    ∀ b ∈ member_bkw [1, 2] (allocate_interval [1, 2] 5 0), 0 ≤ b :=
  allocate_interval_capping [1, 2] 5 0 (by decide) (by decide)

/-- C1 — Energy conservation: at every interval at which the loop has
exited (any sufficient fuel), the members' local allocations sum to
`min(total production, total consumption)` within the balance tolerance
1e-6 (for up to 1000 members), and the grid (bkw) consumptions sum to
exactly total consumption minus the local total. -/
theorem allocate_interval_balance (cons : List ℚ) (production : ℚ) (fuel : ℕ)
    (hc : ∀ c ∈ cons, 0 ≤ c) (hp : 0 ≤ production) (hlen : cons.length ≤ 1000)
    (hdone : loop_done (allocation_loop fuel (init_state cons production))) :
    |(allocate_interval cons production fuel).sum - min production cons.sum| ≤
      BALANCE_EPSILON ∧
    (member_bkw cons (allocate_interval cons production fuel)).sum =
      cons.sum - (allocate_interval cons production fuel).sum := by
  have hle : List.Forall₂ (fun c l => l ≤ c) cons (allocate_interval cons production fuel) :=
    List.Forall₂.imp (fun c l h => h.1) (allocate_interval_forall₂ cons production fuel hc hp)
  have hbkw : (member_bkw cons (allocate_interval cons production fuel)).sum =
      cons.sum - (allocate_interval cons production fuel).sum := by
    rw [member_bkw_eq_sub hle, sum_zipWith_sub hle]
  refine ⟨?_, hbkw⟩
  unfold allocate_interval
  by_cases h1 : 0 < cons.sum ∧ cons.sum ≤ production
  · rw [if_pos h1, min_eq_right h1.2]
    simp only [sub_self, abs_zero]
    norm_num [BALANCE_EPSILON]
  · rw [if_neg h1]
    by_cases h2 : 0 < cons.sum ∧ 0 < production
    · rw [if_pos h2]
      have hps : production < cons.sum := by
        rcases not_and_or.1 h1 with h | h
        · exact absurd h2.1 h
        · exact lt_of_not_le h
      rw [min_eq_left (le_of_lt hps)]
      set st := allocation_loop fuel (init_state cons production) with hst
      have hinv := st_inv_loop fuel (st_inv_init hc hp)
      rw [← hst] at hinv
      have hsum : ((st.entries.map fun e => e.1).sum : ℚ) = sum_fst st.entries := rfl
      rw [hsum]
      have hr0 : 0 ≤ st.remaining := hinv.1
      have hcons : sum_fst st.entries + st.remaining = production := hinv.2.1
      have habs : |sum_fst st.entries - production| = st.remaining := by
        rw [abs_sub_comm]
        rw [abs_of_nonneg (by linarith)]
        linarith
      rw [habs]
      rcases loop_done_cases hdone with hsmall | hdem
      · have : EPSILON ≤ BALANCE_EPSILON := by norm_num [EPSILON, BALANCE_EPSILON]
        linarith
      · have hsnd : sum_snd st.entries ≤ st.entries.length • EPSILON := by
          unfold sum_snd
          have := List.sum_le_card_nsmul (st.entries.map fun e => e.2) EPSILON
            (by intro x hx
                rcases List.mem_map.1 hx with ⟨e, he, rfl⟩
                exact hdem e he)
          simpa using this
        have hlen' : st.entries.length = cons.length := (hinv.2.2.length_eq).symm
        have htot : sum_fst st.entries + sum_snd st.entries = cons.sum :=
          forall₂_inv_sum hinv.2.2
        have hrle : st.remaining ≤ sum_snd st.entries := by linarith
        have hnsmul : (st.entries.length • EPSILON : ℚ) =
            (st.entries.length : ℚ) * EPSILON := by
          rw [nsmul_eq_mul]
        have hbound : (st.entries.length : ℚ) * EPSILON ≤ 1000 * EPSILON := by
          have h1000 : (st.entries.length : ℚ) ≤ 1000 := by
            rw [hlen']
            exact_mod_cast hlen
          have heps : (0:ℚ) ≤ EPSILON := by norm_num [EPSILON]
          exact mul_le_mul_of_nonneg_right h1000 heps
        have hfin : (1000 : ℚ) * EPSILON = BALANCE_EPSILON := by
          norm_num [EPSILON, BALANCE_EPSILON]
        rw [hnsmul] at hsnd
        linarith
    · rw [if_neg h2]
      have hs0 : cons.sum = 0 ∨ production = 0 := by
        rcases not_and_or.1 h2 with h | h
        · left
          have hge : 0 ≤ cons.sum := List.sum_nonneg hc
          linarith [not_lt.1 h]
        · right
          linarith [not_lt.1 h]
      have hzero : ((cons.map fun _ => (0:ℚ)).sum : ℚ) = 0 := by
        simp
      rw [hzero]
      have hmin : min production cons.sum = 0 := by
        rcases hs0 with h | h
        · rw [h]
          exact min_eq_right (by linarith)
        · rw [h]
          exact min_eq_left (List.sum_nonneg hc)
      rw [hmin]
      norm_num [BALANCE_EPSILON]

/-! ### Termination of the allocation loop (claim C6)

The source's `while` loop has no iteration guard.  Termination holds, but
not for the spec's stated reason: a full sweep need not exhaust the pool
nor zero any member's demand.  What is true: every sweep either closes
some member's open demand, or multiplies the pool by at most
`1 − 1/k²` (`k` = number of members), so the pool drops below epsilon
after finitely many sweeps.
-/

theorem eps_pos : (0:ℚ) < EPSILON := by norm_num [EPSILON]

theorem countP_le_of_forall₂ {p : ℚ × ℚ → Bool} :
    ∀ {l l' : List (ℚ × ℚ)},
      List.Forall₂ (fun e e' => p e' = true → p e = true) l l' →
      l'.countP p ≤ l.countP p := by
  intro l l' h
  induction h with
  | nil => simp
  | cons hab htail ih =>
      rw [List.countP_cons, List.countP_cons]
      rename_i a b l₁ l₂
      by_cases hb : p b = true
      · have ha := hab hb
        rw [if_pos hb, if_pos ha]
        omega
      · rw [if_neg hb]
        by_cases ha : p a = true
        · rw [if_pos ha]; omega
        · rw [if_neg ha]; omega

theorem pass_step_length (T : ℚ) :
    ∀ (es : List (ℚ × ℚ)) (r : ℚ), (pass_step T r es).1.length = es.length := by
  intro es
  induction es with
  | nil => intro r; rfl
  | cons e rest ih =>
      intro r
      by_cases hskip : e.2 ≤ EPSILON
      · simp only [pass_step, if_pos hskip, List.length_cons]
        rw [ih r]
      · simp only [pass_step, if_neg hskip, List.length_cons]
        rw [ih]

theorem open_count_pass_le {T : ℚ} (hT : 0 < T) {es : List (ℚ × ℚ)} {r : ℚ}
    (hr : 0 ≤ r) (hbound : ∀ e ∈ es, EPSILON < e.2 → e.2 ≤ T) :
    open_count (pass_step T r es).1 ≤ open_count es := by
  have h4 := (pass_step_spec T hT es r hr hbound).2.2.2
  refine countP_le_of_forall₂ (List.Forall₂.imp ?_ h4)
  rintro e e' ⟨-, hskip, -⟩ hp'
  by_cases hcase : e.2 ≤ EPSILON
  · rw [hskip hcase] at hp'
    exact hp'
  · push_neg at hcase
    exact decide_eq_true hcase

theorem open_total_append (l₁ l₂ : List (ℚ × ℚ)) :
    open_total (l₁ ++ l₂) = open_total l₁ + open_total l₂ := by
  unfold open_total
  rw [List.filter_append, List.map_append, List.sum_append]

theorem open_total_cons_open {e : ℚ × ℚ} (he : EPSILON < e.2) (l : List (ℚ × ℚ)) :
    open_total (e :: l) = e.2 + open_total l := by
  unfold open_total
  rw [List.filter_cons_of_pos (by simpa using he)]
  simp

theorem open_total_cons_closed {e : ℚ × ℚ} (he : ¬ EPSILON < e.2) (l : List (ℚ × ℚ)) :
    open_total (e :: l) = open_total l := by
  unfold open_total
  rw [List.filter_cons_of_neg (by simpa using he)]

theorem exists_max_open : ∀ {es : List (ℚ × ℚ)}, any_open es = true →
    ∃ e₀ ∈ es, EPSILON < e₀.2 ∧ ∀ e ∈ es, e.2 ≤ e₀.2 := by
  intro es
  induction es with
  | nil => intro h; simp [any_open] at h
  | cons e rest ih =>
      intro h
      by_cases hrest : any_open rest = true
      · obtain ⟨e₀, hmem, hopen, hmax⟩ := ih hrest
        by_cases hcmp : e.2 ≤ e₀.2
        · refine ⟨e₀, List.mem_cons_of_mem e hmem, hopen, ?_⟩
          intro x hx
          rcases List.mem_cons.1 hx with rfl | hx'
          · exact hcmp
          · exact hmax x hx'
        · push_neg at hcmp
          refine ⟨e, List.mem_cons_self e rest, lt_trans hopen hcmp, ?_⟩
          intro x hx
          rcases List.mem_cons.1 hx with rfl | hx'
          · exact le_rfl
          · exact le_trans (hmax x hx') (le_of_lt hcmp)
      · have hopen_e : EPSILON < e.2 := by
          unfold any_open at h
          rcases List.any_eq_true.1 h with ⟨x, hx, hpx⟩
          have hx' : EPSILON < x.2 := of_decide_eq_true hpx
          rcases List.mem_cons.1 hx with rfl | hmem
          · exact hx'
          · exact absurd (List.any_eq_true.2 ⟨x, hmem, decide_eq_true hx'⟩) hrest
        refine ⟨e, List.mem_cons_self e rest, hopen_e, ?_⟩
        intro x hx
        rcases List.mem_cons.1 hx with rfl | hx'
        · exact le_rfl
        · by_cases hxo : EPSILON < x.2
          · exact absurd (List.any_eq_true.2 ⟨x, hx', decide_eq_true hxo⟩) hrest
          · push_neg at hxo
            exact le_trans hxo (le_of_lt hopen_e)

theorem open_total_le_length_mul {es : List (ℚ × ℚ)} {e₀ : ℚ × ℚ}
    (hmax : ∀ e ∈ es, e.2 ≤ e₀.2) (h0 : 0 ≤ e₀.2) :
    open_total es ≤ (es.length : ℚ) * e₀.2 := by
  unfold open_total
  have h1 := List.sum_le_card_nsmul ((es.filter fun e => EPSILON < e.2).map fun e => e.2) e₀.2
    (by intro x hx
        rcases List.mem_map.1 hx with ⟨e', he', rfl⟩
        exact hmax e' (List.mem_of_mem_filter he'))
  have h2 : (((es.filter fun e => EPSILON < e.2).map fun e => e.2).length • e₀.2 : ℚ) =
      (((es.filter fun e => EPSILON < e.2).length : ℚ)) * e₀.2 := by
    rw [List.length_map, nsmul_eq_mul]
  have h3 : ((es.filter fun e => EPSILON < e.2).length : ℚ) ≤ (es.length : ℚ) := by
    exact_mod_cast List.length_filter_le _ es
  calc ((es.filter fun e => EPSILON < e.2).map fun e => e.2).sum
      ≤ _ • e₀.2 := h1
    _ = ((es.filter fun e => EPSILON < e.2).length : ℚ) * e₀.2 := h2
    _ ≤ (es.length : ℚ) * e₀.2 := mul_le_mul_of_nonneg_right h3 h0

/-- The heart of the termination argument: one sweep over
`pre ++ e₀ :: suf` with `e₀` open either closes some open entry, or
removes at least the fraction `(e₀.2/T)·(1 − open_total pre / T)` of the
pool. -/
theorem pass_step_progress (T : ℚ) (hT : 0 < T) :
    ∀ (pre : List (ℚ × ℚ)) (e₀ : ℚ × ℚ) (suf : List (ℚ × ℚ)) (r : ℚ), 0 ≤ r →
      (∀ e ∈ pre ++ e₀ :: suf, EPSILON < e.2 → e.2 ≤ T) → EPSILON < e₀.2 →
      open_count (pass_step T r (pre ++ e₀ :: suf)).1 < open_count (pre ++ e₀ :: suf) ∨
      (pass_step T r (pre ++ e₀ :: suf)).2 ≤
        r * (1 - e₀.2 / T * (1 - open_total pre / T)) := by
  intro pre
  induction pre with
  | nil =>
      intro e₀ suf r hr hbound h₀
      have hd0 : 0 ≤ e₀.2 := le_of_lt (lt_trans eps_pos h₀)
      have hdT : e₀.2 ≤ T := hbound e₀ (by simp) h₀
      have hsufbound : ∀ e ∈ suf, EPSILON < e.2 → e.2 ≤ T := by
        intro e he
        exact hbound e (by simp [he])
      rw [List.nil_append]
      by_cases hcap : e₀.2 ≤ e₀.2 / T * r
      · left
        have hactual : min (e₀.2 / T * r) e₀.2 = e₀.2 := min_eq_right hcap
        have heq : pass_step T r (e₀ :: suf) =
            ((e₀.1 + e₀.2, e₀.2 - e₀.2) :: (pass_step T (r - e₀.2) suf).1,
              (pass_step T (r - e₀.2) suf).2) := by
          simp only [pass_step, if_neg (not_le.2 h₀), hactual]
        have hr2 : 0 ≤ r - e₀.2 := by
          have h1 : e₀.2 / T * r ≤ r := by
            have h2 : e₀.2 / T ≤ 1 := (div_le_one hT).2 hdT
            calc e₀.2 / T * r ≤ 1 * r := mul_le_mul_of_nonneg_right h2 hr
            _ = r := one_mul r
          linarith
        have htail : open_count (pass_step T (r - e₀.2) suf).1 ≤ open_count suf :=
          open_count_pass_le hT hr2 hsufbound
        rw [heq]
        unfold open_count
        rw [List.countP_cons, List.countP_cons]
        have hclosed : (decide (EPSILON < (e₀.1 + e₀.2, e₀.2 - e₀.2).2) : Bool) = false := by
          simp only [decide_eq_false_iff_not]
          intro hlt
          simp only [sub_self] at hlt
          exact absurd hlt (not_lt.2 (le_of_lt eps_pos))
        have hopen₀ : (decide (EPSILON < e₀.2) : Bool) = true := decide_eq_true h₀
        rw [hclosed, hopen₀]
        unfold open_count at htail
        simp only [Bool.false_eq_true, if_false, eq_self_iff_true, if_true]
        omega
      · push_neg at hcap
        right
        have hactual : min (e₀.2 / T * r) e₀.2 = e₀.2 / T * r := min_eq_left (le_of_lt hcap)
        have heq : pass_step T r (e₀ :: suf) =
            ((e₀.1 + e₀.2 / T * r, e₀.2 - e₀.2 / T * r) ::
              (pass_step T (r - e₀.2 / T * r) suf).1,
              (pass_step T (r - e₀.2 / T * r) suf).2) := by
          simp only [pass_step, if_neg (not_le.2 h₀), hactual]
        have hfrac : 0 ≤ e₀.2 / T := by positivity
        have hfrac1 : e₀.2 / T ≤ 1 := (div_le_one hT).2 hdT
        have hr2 : 0 ≤ r - e₀.2 / T * r := by nlinarith
        have hspec := pass_step_spec T hT suf (r - e₀.2 / T * r) hr2 hsufbound
        rw [heq]
        have hle : (pass_step T (r - e₀.2 / T * r) suf).2 ≤ r - e₀.2 / T * r := hspec.2.1
        have : r * (1 - e₀.2 / T * (1 - open_total [] / T)) = r - e₀.2 / T * r := by
          unfold open_total
          simp only [List.filter_nil, List.map_nil, List.sum_nil, zero_div]
          ring
        rw [this]
        exact hle
  | cons e pre' ih =>
      intro e₀ suf r hr hbound h₀
      have hbound' : ∀ x ∈ pre' ++ e₀ :: suf, EPSILON < x.2 → x.2 ≤ T := by
        intro x hx
        exact hbound x (List.mem_cons_of_mem e hx)
      rw [List.cons_append]
      by_cases hskip : e.2 ≤ EPSILON
      · have heq : pass_step T r (e :: (pre' ++ e₀ :: suf)) =
            (e :: (pass_step T r (pre' ++ e₀ :: suf)).1,
              (pass_step T r (pre' ++ e₀ :: suf)).2) := by
          simp only [pass_step, if_pos hskip]
        rcases ih e₀ suf r hr hbound' h₀ with hlt | hle
        · left
          rw [heq]
          unfold open_count at hlt ⊢
          rw [List.countP_cons, List.countP_cons]
          omega
        · right
          rw [heq]
          have hS : open_total (e :: pre') = open_total pre' :=
            open_total_cons_closed (not_lt.2 hskip) pre'
          rw [hS]
          exact hle
      · push_neg at hskip
        have hd0 : 0 ≤ e.2 := le_of_lt (lt_trans eps_pos hskip)
        have hdT : e.2 ≤ T := hbound e (List.mem_cons_self _ _) hskip
        have hfrac : 0 ≤ e.2 / T := by positivity
        have hfrac1 : e.2 / T ≤ 1 := (div_le_one hT).2 hdT
        by_cases hcap : e.2 ≤ e.2 / T * r
        · left
          have hactual : min (e.2 / T * r) e.2 = e.2 := min_eq_right hcap
          have heq : pass_step T r (e :: (pre' ++ e₀ :: suf)) =
              ((e.1 + e.2, e.2 - e.2) :: (pass_step T (r - e.2) (pre' ++ e₀ :: suf)).1,
                (pass_step T (r - e.2) (pre' ++ e₀ :: suf)).2) := by
            simp only [pass_step, if_neg (not_le.2 hskip), hactual]
          have hr2 : 0 ≤ r - e.2 := by nlinarith
          have htail : open_count (pass_step T (r - e.2) (pre' ++ e₀ :: suf)).1 ≤
              open_count (pre' ++ e₀ :: suf) := open_count_pass_le hT hr2 hbound'
          rw [heq]
          unfold open_count at htail ⊢
          rw [List.countP_cons, List.countP_cons]
          have hclosed : (decide (EPSILON < (e.1 + e.2, e.2 - e.2).2) : Bool) = false := by
            simp only [decide_eq_false_iff_not]
            intro hlt
            simp only [sub_self] at hlt
            exact absurd hlt (not_lt.2 (le_of_lt eps_pos))
          have hopen : (decide (EPSILON < e.2) : Bool) = true := decide_eq_true hskip
          rw [hclosed, hopen]
          simp only [Bool.false_eq_true, if_false, eq_self_iff_true, if_true]
          omega
        · push_neg at hcap
          have hactual : min (e.2 / T * r) e.2 = e.2 / T * r := min_eq_left (le_of_lt hcap)
          have heq : pass_step T r (e :: (pre' ++ e₀ :: suf)) =
              ((e.1 + e.2 / T * r, e.2 - e.2 / T * r) ::
                (pass_step T (r - e.2 / T * r) (pre' ++ e₀ :: suf)).1,
                (pass_step T (r - e.2 / T * r) (pre' ++ e₀ :: suf)).2) := by
            simp only [pass_step, if_neg (not_le.2 hskip), hactual]
          have hr2 : 0 ≤ r - e.2 / T * r := by nlinarith
          rcases ih e₀ suf (r - e.2 / T * r) hr2 hbound' h₀ with hlt | hle
          · left
            rw [heq]
            unfold open_count at hlt ⊢
            rw [List.countP_cons, List.countP_cons]
            dsimp only
            have hhead : (if (decide (EPSILON < e.2 - e.2 / T * r) : Bool) = true
                then 1 else 0) ≤ 1 := by
              split
              · exact le_rfl
              · omega
            have hopen : (decide (EPSILON < e.2) : Bool) = true := decide_eq_true hskip
            rw [hopen]
            simp only [eq_self_iff_true, if_true]
            omega
          · right
            rw [heq]
            dsimp only
            have hS : open_total (e :: pre') = e.2 + open_total pre' :=
              open_total_cons_open hskip pre'
            rw [hS]
            have hB0 : 0 ≤ e₀.2 / T := by
              have : 0 ≤ e₀.2 := le_of_lt (lt_trans eps_pos h₀)
              positivity
            have hSp0 : 0 ≤ open_total pre' / T := by
              have := open_total_nonneg pre'
              positivity
            have hkey : r * (1 - e₀.2 / T * (1 - (e.2 + open_total pre') / T)) -
                (r - e.2 / T * r) * (1 - e₀.2 / T * (1 - open_total pre' / T)) =
                r * (e.2 / T) * (1 + (e₀.2 / T) * (open_total pre' / T)) := by
              field_simp
              ring
            have hpos : 0 ≤ r * (e.2 / T) * (1 + (e₀.2 / T) * (open_total pre' / T)) := by
              have h1 : 0 ≤ (e₀.2 / T) * (open_total pre' / T) := mul_nonneg hB0 hSp0
              have h2 : 0 ≤ r * (e.2 / T) := mul_nonneg hr hfrac
              nlinarith
            linarith

/-- One sweep, at loop level: either the number of open demands strictly
drops, or the pool shrinks by a factor of at most `1 − 1/k²`. -/
theorem one_pass_progress {st : AllocState} (hcond : loop_cond st)
    (hr : 0 ≤ st.remaining) :
    open_count (one_pass st).entries < open_count st.entries ∨
    (one_pass st).remaining ≤
      st.remaining * (1 - 1 / ((st.entries.length : ℚ) * st.entries.length)) := by
  obtain ⟨e₀, hmem, hopen, hmax⟩ := exists_max_open hcond.2
  obtain ⟨pre, suf, heq⟩ := List.append_of_mem hmem
  have hT : 0 < open_total st.entries := lt_trans eps_pos (any_open_total hcond.2)
  have hbound : ∀ e ∈ st.entries, EPSILON < e.2 → e.2 ≤ open_total st.entries :=
    fun e he hop => open_le_open_total he hop
  have hbound' : ∀ e ∈ pre ++ e₀ :: suf, EPSILON < e.2 → e.2 ≤ open_total st.entries := by
    rw [← heq]; exact hbound
  have hd0 : 0 < e₀.2 := lt_trans eps_pos hopen
  have hk : 0 < st.entries.length := by
    refine List.length_pos.2 ?_
    intro hnil
    rw [hnil] at hmem
    exact absurd hmem (List.not_mem_nil e₀)
  have hkQ : (1:ℚ) ≤ (st.entries.length : ℚ) := by exact_mod_cast hk
  have hprog := pass_step_progress (open_total st.entries) hT pre e₀ suf
    st.remaining hr hbound' hopen
  have hentries : (one_pass st).entries = (pass_step (open_total st.entries)
      st.remaining st.entries).1 := rfl
  have hrem : (one_pass st).remaining = (pass_step (open_total st.entries)
      st.remaining st.entries).2 := rfl
  rcases hprog with hlt | hle
  · left
    rw [← heq] at hlt
    rw [hentries]
    exact hlt
  · right
    rw [← heq] at hle
    rw [hrem]
    set T := open_total st.entries with hTdef
    set x := e₀.2 / T with hx
    have hx0 : 0 < x := div_pos hd0 hT
    -- T decomposes over the list; the open prefix sums to at most T − e₀.2
    have hTsplit : T = open_total pre + e₀.2 + open_total suf := by
      rw [hTdef]
      conv_lhs => rw [heq]
      rw [open_total_append, open_total_cons_open hopen]
      ring
    have hsuf0 : 0 ≤ open_total suf := open_total_nonneg suf
    have hpre0 : 0 ≤ open_total pre := open_total_nonneg pre
    have hpre_le : open_total pre ≤ T - e₀.2 := by linarith
    have hSfac : x ≤ 1 - open_total pre / T := by
      rw [hx]
      rw [div_le_iff hT] at *
      have h1 : (1 - open_total pre / T) * T = T - open_total pre := by
        field_simp
      nlinarith [hpre_le, hT]
    -- x ≥ 1/k
    have hTk : T ≤ (st.entries.length : ℚ) * e₀.2 := by
      have := open_total_le_length_mul hmax (le_of_lt hd0)
      rw [← hTdef] at this
      exact this
    have hxk : 1 / (st.entries.length : ℚ) ≤ x := by
      rw [hx, div_le_div_iff (by linarith) hT]
      calc 1 * T = T := one_mul T
        _ ≤ (st.entries.length : ℚ) * e₀.2 := hTk
        _ = e₀.2 * (st.entries.length : ℚ) := mul_comm _ _
    -- combine: x * (1 − Sp/T) ≥ x * x ≥ 1/k²
    have hfac : 1 / ((st.entries.length : ℚ) * st.entries.length) ≤
        x * (1 - open_total pre / T) := by
      have h1 : x * x ≤ x * (1 - open_total pre / T) :=
        mul_le_mul_of_nonneg_left hSfac (le_of_lt hx0)
      have h2 : (1 / (st.entries.length : ℚ)) * (1 / (st.entries.length : ℚ)) ≤ x * x := by
        have hk0 : (0:ℚ) ≤ 1 / (st.entries.length : ℚ) := by positivity
        exact mul_le_mul hxk hxk hk0 (le_of_lt hx0)
      have h3 : (1 / (st.entries.length : ℚ)) * (1 / (st.entries.length : ℚ)) =
          1 / ((st.entries.length : ℚ) * st.entries.length) := by
        rw [div_mul_div_comm, one_mul]
      linarith
    have hmono : st.remaining * (1 - x * (1 - open_total pre / T)) ≤
        st.remaining * (1 - 1 / ((st.entries.length : ℚ) * st.entries.length)) := by
      apply mul_le_mul_of_nonneg_left _ hr
      linarith
    exact le_trans hle hmono

theorem one_pass_length (st : AllocState) :
    (one_pass st).entries.length = st.entries.length :=
  pass_step_length _ st.entries st.remaining

theorem one_pass_remaining {st : AllocState} (hcond : loop_cond st)
    (hr : 0 ≤ st.remaining) :
    0 ≤ (one_pass st).remaining ∧ (one_pass st).remaining ≤ st.remaining := by
  have hT : 0 < open_total st.entries := lt_trans eps_pos (any_open_total hcond.2)
  have hspec := pass_step_spec (open_total st.entries) hT st.entries st.remaining hr
    (fun e he hop => open_le_open_total he hop)
  exact ⟨hspec.1, hspec.2.1⟩

theorem open_count_one_pass_le {st : AllocState} (hcond : loop_cond st)
    (hr : 0 ≤ st.remaining) :
    open_count (one_pass st).entries ≤ open_count st.entries := by
  have hT : 0 < open_total st.entries := lt_trans eps_pos (any_open_total hcond.2)
  exact open_count_pass_le hT hr (fun e he hop => open_le_open_total he hop)

/-- Geometric budget factor: `1 + 1/k²`. -/
def bound_factor (k : ℕ) : ℚ := 1 + 1 / ((k : ℚ) * k)

theorem open_count_zero_done {st : AllocState} (h : open_count st.entries = 0) :
    loop_done st := by
  intro hcond
  obtain ⟨e, he, hopen⟩ := List.any_eq_true.1 hcond.2
  have := List.countP_eq_zero.1 h e he
  exact absurd hopen (by simpa using this)

theorem remaining_small_done {st : AllocState} (h : st.remaining ≤ EPSILON) :
    loop_done st := by
  intro hcond
  exact absurd hcond.1 (not_lt.2 h)

theorem term_aux : ∀ (cnt n : ℕ) (st : AllocState), 0 ≤ st.remaining →
    open_count st.entries ≤ cnt →
    st.remaining ≤ EPSILON * (bound_factor st.entries.length) ^ n →
    ∃ m, loop_done (allocation_loop m st) := by
  intro cnt
  induction cnt with
  | zero =>
      intro n st hr hcnt hb
      exact ⟨0, open_count_zero_done (Nat.le_zero.1 hcnt)⟩
  | succ cnt ihc =>
      intro n
      induction n with
      | zero =>
          intro st hr hcnt hb
          rw [pow_zero, mul_one] at hb
          exact ⟨0, remaining_small_done hb⟩
      | succ n ihn =>
          intro st hr hcnt hb
          by_cases hdone : loop_done st
          · exact ⟨0, hdone⟩
          · have hcond : loop_cond st := not_not.1 hdone
            have hk : 0 < st.entries.length := by
              refine List.length_pos.2 (fun hnil => hdone ?_)
              intro hc
              have h2 := hc.2
              rw [hnil] at h2
              simp [any_open] at h2
            set k := st.entries.length with hkdef
            set x := 1 / ((k : ℚ) * k) with hxdef
            have hkQ : (1:ℚ) ≤ (k : ℚ) := by exact_mod_cast hk
            have hx0 : 0 < x := by
              rw [hxdef]
              positivity
            have hx1 : x ≤ 1 := by
              rw [hxdef]
              rw [div_le_one (by nlinarith)]
              nlinarith
            have heps0 : (0:ℚ) < EPSILON := eps_pos
            have hrem := one_pass_remaining hcond hr
            have hlen : (one_pass st).entries.length = k := one_pass_length st
            rcases one_pass_progress hcond hr with hlt | hsh
            · -- an open demand closed: recurse on the member count
              have hcnt' : open_count (one_pass st).entries ≤ cnt := by omega
              have hb' : (one_pass st).remaining ≤
                  EPSILON * (bound_factor (one_pass st).entries.length) ^ (n + 1) := by
                rw [hlen]
                exact le_trans hrem.2 hb
              obtain ⟨m, hm⟩ := ihc (n + 1) (one_pass st) hrem.1 hcnt' hb'
              exact ⟨m + 1, by rw [allocation_loop_step hcond]; exact hm⟩
            · -- the pool shrank by the factor: recurse on the budget
              have hcnt' : open_count (one_pass st).entries ≤ cnt + 1 :=
                le_trans (open_count_one_pass_le hcond hr) hcnt
              have hb' : (one_pass st).remaining ≤
                  EPSILON * (bound_factor (one_pass st).entries.length) ^ n := by
                rw [hlen]
                have hbf : bound_factor k = 1 + x := by rw [bound_factor, hxdef]
                have hpow : (0:ℚ) ≤ (1 + x) ^ n := by positivity
                have h1 : st.remaining * (1 - x) ≤
                    (EPSILON * (1 + x) ^ (n + 1)) * (1 - x) := by
                  apply mul_le_mul_of_nonneg_right _ (by linarith)
                  rw [hbf] at hb
                  exact hb
                have h2 : (EPSILON * (1 + x) ^ (n + 1)) * (1 - x) ≤
                    EPSILON * (1 + x) ^ n := by
                  have hexp : (1 + x) ^ (n + 1) = (1 + x) ^ n * (1 + x) := pow_succ _ n
                  rw [hexp]
                  have hfact : EPSILON * ((1 + x) ^ n * (1 + x)) * (1 - x) =
                      EPSILON * (1 + x) ^ n * (1 - x * x) := by ring
                  rw [hfact]
                  have hxx : 0 ≤ x * x := mul_nonneg (le_of_lt hx0) (le_of_lt hx0)
                  nlinarith [mul_nonneg (mul_nonneg (le_of_lt heps0) hpow) hxx]
                rw [hbf]
                calc (one_pass st).remaining
                    ≤ st.remaining * (1 - x) := by rw [hxdef, hkdef]; exact hsh
                  _ ≤ (EPSILON * (1 + x) ^ (n + 1)) * (1 - x) := h1
                  _ ≤ EPSILON * (1 + x) ^ n := h2
              obtain ⟨m, hm⟩ := ihn (one_pass st) hrem.1 hcnt' hb'
              exact ⟨m + 1, by rw [allocation_loop_step hcond]; exact hm⟩

/-- From any state with a non-negative pool, enough passes reach the exit. -/
theorem allocation_loop_terminates (st : AllocState) (hr : 0 ≤ st.remaining) :
    ∃ m, loop_done (allocation_loop m st) := by
  by_cases hempty : st.entries = []
  · refine ⟨0, ?_⟩
    intro hcond
    have h0 : allocation_loop 0 st = st := rfl
    rw [h0] at hcond
    have h2 := hcond.2
    rw [hempty] at h2
    simp [any_open] at h2
  · have hk : 0 < st.entries.length := List.length_pos.2 hempty
    have hkQ : (1:ℚ) ≤ (st.entries.length : ℚ) := by exact_mod_cast hk
    have hbf : 1 < bound_factor st.entries.length := by
      rw [bound_factor]
      have : (0:ℚ) < 1 / ((st.entries.length : ℚ) * st.entries.length) := by positivity
      linarith
    obtain ⟨n, hn⟩ := pow_unbounded_of_one_lt (st.remaining / EPSILON) hbf
    have hb : st.remaining ≤ EPSILON * (bound_factor st.entries.length) ^ n := by
      have heps : (0:ℚ) < EPSILON := eps_pos
      rw [div_lt_iff heps] at hn
      linarith [hn]
    exact term_aux (open_count st.entries) n st hr le_rfl hb

unseal Rat.mul Rat.inv Rat.add Rat.sub in
/-- C6 counterexample: with demands [1, 1] and pool 1, the first sweep
leaves pool 1/4 — it neither exhausts the remaining production (the loop
condition still holds afterwards) nor drives any member's open demand to
zero (both demands stay open, and none is zero). -/
theorem allocation_pass_counterexample :
    allocation_loop 1 (init_state [1, 1] 1) =
      ⟨[(1/2, 1/2), (1/4, 3/4)], 1/4⟩ ∧
    loop_cond (allocation_loop 1 (init_state [1, 1] 1)) ∧
    open_count (allocation_loop 1 (init_state [1, 1] 1)).entries =
      open_count (init_state [1, 1] 1).entries ∧
    ∀ e ∈ (allocation_loop 1 (init_state [1, 1] 1)).entries, e.2 ≠ 0 := by
  decide

/-- C6 (amended) — Termination of the capped proportional loop: for every
interval state with a non-negative pool the loop reaches its exit
condition after finitely many sweeps (no iteration guard is needed), and
the reason is that every sweep either strictly decreases the number of
members with open demand or shrinks the pool by a factor of at most
`1 − 1/k²` (`k` = number of members) — not that a sweep always exhausts
the pool or zeroes a demand. -/
theorem allocation_loop_terminates_c6 :
    (∀ (cons : List ℚ) (production : ℚ), 0 ≤ production →
      ∃ m, loop_done (allocation_loop m (init_state cons production))) ∧
    (∀ st : AllocState, loop_cond st → 0 ≤ st.remaining →
      open_count (one_pass st).entries < open_count st.entries ∨
      (one_pass st).remaining ≤
        st.remaining * (1 - 1 / ((st.entries.length : ℚ) * st.entries.length))) := by
  constructor
  · intro cons production hp
    exact allocation_loop_terminates _ hp
  · intro st hcond hr
    exact one_pass_progress hcond hr

unseal Rat.mul Rat.inv Rat.add Rat.sub in
theorem allocation_loop_terminates_c6_witness :
    ∃ m, loop_done (allocation_loop m (init_state [1, 1] 1)) :=
  allocation_loop_terminates_c6.1 [1, 1] 1 (by decide)

unseal Rat.mul Rat.inv Rat.add Rat.sub in
theorem allocate_interval_balance_witness :
    |(allocate_interval [1] (1/2) 1).sum - min (1/2) ([1] : List ℚ).sum| ≤
      BALANCE_EPSILON ∧
    (member_bkw [1] (allocate_interval [1] (1/2) 1)).sum =
      ([1] : List ℚ).sum - (allocate_interval [1] (1/2) 1).sum :=
  allocate_interval_balance [1] (1/2) 1 (by decide) (by decide) (by decide) (by decide)

/-! ## Upsert-by-natural-key stores — src/database.py

`upsert_meter_energy_batch` (lines 374–393) and
`upsert_invoice_daily_batch` (lines 396–439) both run
`INSERT … ON CONFLICT(<natural key>) DO UPDATE SET <all value columns>`
row by row.  A table is modelled as a list of (key, values) rows in
insertion order: a conflicting key overwrites that row's values in place,
otherwise the row is appended.  (The AUTOINCREMENT id is omitted: an
update never changes it and a re-run inserts no rows.)  The same upsert
semantics is Python's `dict[key] = value`, reused by the CSV importer's
deduplication below.
-/

def upsert_one {κ ν : Type} [DecidableEq κ] (tbl : List (κ × ν)) (r : κ × ν) :
    List (κ × ν) :=
  if tbl.any fun t => decide (t.1 = r.1) then
    tbl.map fun t => if t.1 = r.1 then (t.1, r.2) else t
  else tbl ++ [r]

def upsert_batch {κ ν : Type} [DecidableEq κ] (tbl rows : List (κ × ν)) :
    List (κ × ν) :=
  rows.foldl upsert_one tbl

def table_keys {κ ν : Type} (tbl : List (κ × ν)) : List κ := tbl.map fun t => t.1

def table_find {κ ν : Type} [DecidableEq κ] (tbl : List (κ × ν)) (k : κ) : Option ν :=
  (tbl.find? fun t => decide (t.1 = k)).map fun t => t.2

/-- The values the last batch row with key `k` carries, if any. -/
def find_last {κ ν : Type} [DecidableEq κ] : List (κ × ν) → κ → Option ν
  | [], _ => none
  | r :: rest, k =>
      match find_last rest k with
      | some v => some v
      | none => if r.1 = k then some r.2 else none

/-- Keys a batch appends to a table whose key set is `seen`, in first-appearance
order. -/
def new_keys {κ ν : Type} [DecidableEq κ] : List (κ × ν) → List κ → List κ
  | [], _ => []
  | r :: rest, seen =>
      if r.1 ∈ seen then new_keys rest seen
      else r.1 :: new_keys rest (seen ++ [r.1])

theorem upsert_one_keys {κ ν : Type} [DecidableEq κ] (tbl : List (κ × ν)) (r : κ × ν) :
    table_keys (upsert_one tbl r) =
      if r.1 ∈ table_keys tbl then table_keys tbl else table_keys tbl ++ [r.1] := by
  unfold upsert_one
  by_cases hmem : r.1 ∈ table_keys tbl
  · have hany : (tbl.any fun t => decide (t.1 = r.1)) = true := by
      rcases List.mem_map.1 hmem with ⟨t, ht, hkey⟩
      exact List.any_eq_true.2 ⟨t, ht, decide_eq_true hkey⟩
    rw [if_pos hany, if_pos hmem]
    unfold table_keys
    rw [List.map_map]
    congr 1
    funext t
    by_cases hk : t.1 = r.1 <;> simp [hk]
  · have hany : (tbl.any fun t => decide (t.1 = r.1)) = false := by
      rw [List.any_eq_false]
      intro t ht
      simp only [decide_eq_true_eq]
      intro hkey
      exact hmem (List.mem_map.2 ⟨t, ht, hkey⟩)
    rw [hany, if_neg hmem]
    simp only [Bool.false_eq_true, if_false]
    unfold table_keys
    rw [List.map_append]
    rfl

theorem upsert_one_find {κ ν : Type} [DecidableEq κ] (tbl : List (κ × ν))
    (r : κ × ν) (k : κ) :
    table_find (upsert_one tbl r) k =
      if k = r.1 then some r.2 else table_find tbl k := by
  unfold upsert_one
  by_cases hany : (tbl.any fun t => decide (t.1 = r.1)) = true
  · rw [if_pos hany]
    unfold table_find
    rw [List.find?_map]
    have hpred : ((fun t : κ × ν => decide (t.1 = k)) ∘
        fun t : κ × ν => if t.1 = r.1 then (t.1, r.2) else t) =
        fun t : κ × ν => decide (t.1 = k) := by
      funext t
      by_cases ht : t.1 = r.1 <;> simp [ht]
    rw [hpred]
    by_cases hk : k = r.1
    · rw [if_pos hk]
      obtain ⟨t₀, ht₀, hkey₀⟩ := List.any_eq_true.1 hany
      have hkey₀' : t₀.1 = k := by rw [hk]; exact of_decide_eq_true hkey₀
      have hsome : (tbl.find? fun t : κ × ν => decide (t.1 = k)).isSome := by
        rw [List.find?_isSome]
        exact ⟨t₀, ht₀, decide_eq_true hkey₀'⟩
      obtain ⟨tf, htf⟩ := Option.isSome_iff_exists.1 hsome
      rw [htf]
      have hp := List.find?_some htf
      have hkf : tf.1 = k := of_decide_eq_true hp
      rw [Option.map_some', Option.map_some', if_pos (hkf.trans hk)]
    · rw [if_neg hk]
      cases htf : tbl.find? fun t : κ × ν => decide (t.1 = k) with
      | none => simp
      | some tf =>
          have hp := List.find?_some htf
          have hkf : tf.1 = k := of_decide_eq_true hp
          have hne : ¬ tf.1 = r.1 := fun h => hk (hkf.symm.trans h)
          rw [Option.map_some', Option.map_some', if_neg hne]
          rfl
  · rw [if_neg hany]
    simp only [Bool.not_eq_true] at hany
    unfold table_find
    rw [List.find?_append]
    by_cases hk : k = r.1
    · rw [if_pos hk]
      have hnone : (tbl.find? fun t : κ × ν => decide (t.1 = k)) = none := by
        rw [List.find?_eq_none]
        intro t ht
        simp only [decide_eq_true_eq]
        intro hkey
        have hfalse := List.any_eq_false.1 hany t ht
        simp only [decide_eq_true_eq] at hfalse
        exact hfalse (hkey.trans hk)
      rw [hnone]
      have hsingle : (([r] : List (κ × ν)).find? fun t => decide (t.1 = k)) = some r := by
        refine List.find?_cons_of_pos _ ?_
        simp only [decide_eq_true_eq]
        exact hk.symm
      rw [hsingle]
      rfl
    · rw [if_neg hk]
      have hsingle : (([r] : List (κ × ν)).find? fun t => decide (t.1 = k)) = none := by
        rw [List.find?_eq_none]
        intro t ht
        have ht' : t = r := by simpa using ht
        subst ht'
        simp only [decide_eq_true_eq]
        exact fun h => hk h.symm
      rw [hsingle]
      cases htf : tbl.find? fun t : κ × ν => decide (t.1 = k) <;> simp

theorem table_keys_nodup_upsert_one {κ ν : Type} [DecidableEq κ]
    {tbl : List (κ × ν)} (h : (table_keys tbl).Nodup) (r : κ × ν) :
    (table_keys (upsert_one tbl r)).Nodup := by
  rw [upsert_one_keys]
  by_cases hmem : r.1 ∈ table_keys tbl
  · rw [if_pos hmem]; exact h
  · rw [if_neg hmem]
    simp [List.nodup_append, h, hmem]

theorem upsert_batch_find {κ ν : Type} [DecidableEq κ] :
    ∀ (rows tbl : List (κ × ν)) (k : κ),
      table_find (upsert_batch tbl rows) k =
        match find_last rows k with
        | some v => some v
        | none => table_find tbl k := by
  intro rows
  induction rows with
  | nil => intro tbl k; rfl
  | cons r rest ih =>
      intro tbl k
      have hstep : upsert_batch tbl (r :: rest) = upsert_batch (upsert_one tbl r) rest := rfl
      rw [hstep, ih (upsert_one tbl r) k, upsert_one_find]
      show _ = (match (match find_last rest k with
          | some v => some v
          | none => if r.1 = k then some r.2 else none) with
        | some v => some v
        | none => table_find tbl k)
      cases hfl : find_last rest k with
      | some v => rfl
      | none =>
          simp only []
          by_cases hk : k = r.1
          · rw [if_pos hk, if_pos (hk.symm)]
          · rw [if_neg hk, if_neg (fun h => hk h.symm)]

theorem new_keys_cons {κ ν : Type} [DecidableEq κ] (r : κ × ν)
    (rest : List (κ × ν)) (seen : List κ) :
    new_keys (r :: rest) seen =
      if r.1 ∈ seen then new_keys rest seen
      else r.1 :: new_keys rest (seen ++ [r.1]) := rfl

theorem upsert_batch_keys {κ ν : Type} [DecidableEq κ] :
    ∀ (rows tbl : List (κ × ν)),
      table_keys (upsert_batch tbl rows) =
        table_keys tbl ++ new_keys rows (table_keys tbl) := by
  intro rows
  induction rows with
  | nil => intro tbl; simp [upsert_batch, new_keys]
  | cons r rest ih =>
      intro tbl
      have hstep : upsert_batch tbl (r :: rest) = upsert_batch (upsert_one tbl r) rest := rfl
      rw [hstep, ih (upsert_one tbl r), upsert_one_keys, new_keys_cons]
      by_cases hmem : r.1 ∈ table_keys tbl
      · rw [if_pos hmem, if_pos hmem]
      · rw [if_neg hmem, if_neg hmem, List.append_assoc, List.singleton_append]

theorem table_keys_nodup_batch {κ ν : Type} [DecidableEq κ] :
    ∀ (rows tbl : List (κ × ν)), (table_keys tbl).Nodup →
      (table_keys (upsert_batch tbl rows)).Nodup := by
  intro rows
  induction rows with
  | nil => intro tbl h; exact h
  | cons r rest ih =>
      intro tbl h
      exact ih (upsert_one tbl r) (table_keys_nodup_upsert_one h r)

theorem find_last_isSome {κ ν : Type} [DecidableEq κ] :
    ∀ (rows : List (κ × ν)) (k : κ), k ∈ rows.map (fun t => t.1) →
      (find_last rows k).isSome := by
  intro rows
  induction rows with
  | nil => intro k hk; simp at hk
  | cons r rest ih =>
      intro k hk
      unfold find_last
      cases hfl : find_last rest k with
      | some v => simp
      | none =>
          simp only [List.map_cons, List.mem_cons] at hk
          rcases hk with hk | hk
          · rw [if_pos hk.symm]; simp
          · have := ih k hk
            rw [hfl] at this
            simp at this

theorem table_find_isSome_iff {κ ν : Type} [DecidableEq κ]
    (tbl : List (κ × ν)) (k : κ) :
    (table_find tbl k).isSome ↔ k ∈ table_keys tbl := by
  unfold table_find table_keys
  constructor
  · intro h
    cases hf : tbl.find? fun t => decide (t.1 = k) with
    | none => rw [hf] at h; simp at h
    | some t =>
        have hp := List.find?_some hf
        have hmem := List.mem_of_find?_eq_some hf
        exact List.mem_map.2 ⟨t, hmem, of_decide_eq_true hp⟩
  · intro hmem
    rcases List.mem_map.1 hmem with ⟨t, ht, hkey⟩
    have hsome : (tbl.find? fun t => decide (t.1 = k)).isSome := by
      rw [List.find?_isSome]
      exact ⟨t, ht, decide_eq_true hkey⟩
    cases hf : tbl.find? fun t => decide (t.1 = k) with
    | none => rw [hf] at hsome; simp at hsome
    | some t' => rfl

theorem new_keys_eq_nil {κ ν : Type} [DecidableEq κ] :
    ∀ (rows : List (κ × ν)) (seen : List κ), (∀ r ∈ rows, r.1 ∈ seen) →
      new_keys rows seen = [] := by
  intro rows
  induction rows with
  | nil => intro seen _; rfl
  | cons r rest ih =>
      intro seen hall
      unfold new_keys
      rw [if_pos (hall r (List.mem_cons_self r rest))]
      exact ih seen fun x hx => hall x (List.mem_cons_of_mem r hx)

theorem table_find_eq_none_of_not_mem {κ ν : Type} [DecidableEq κ]
    {tbl : List (κ × ν)} {k : κ} (h : k ∉ table_keys tbl) :
    table_find tbl k = none := by
  cases hfind : table_find tbl k with
  | none => rfl
  | some v =>
      exfalso
      apply h
      rw [← table_find_isSome_iff tbl k, hfind]
      rfl

theorem table_ext {κ ν : Type} [DecidableEq κ] :
    ∀ {t₁ t₂ : List (κ × ν)}, (table_keys t₁).Nodup → (table_keys t₂).Nodup →
      table_keys t₁ = table_keys t₂ → (∀ k, table_find t₁ k = table_find t₂ k) →
      t₁ = t₂ := by
  intro t₁
  induction t₁ with
  | nil =>
      intro t₂ _ _ hkeys _
      cases t₂ with
      | nil => rfl
      | cons r₂ rest₂ => exact absurd hkeys.symm (by simp [table_keys])
  | cons r₁ rest₁ ih =>
      intro t₂ h₁ h₂ hkeys hfind
      cases t₂ with
      | nil => exact absurd hkeys (by simp [table_keys])
      | cons r₂ rest₂ =>
          have hkey_head : r₁.1 = r₂.1 := by
            have := hkeys
            simp only [table_keys, List.map_cons, List.cons.injEq] at this
            exact this.1
          have hkey_tail : table_keys rest₁ = table_keys rest₂ := by
            have := hkeys
            simp only [table_keys, List.map_cons, List.cons.injEq] at this
            exact this.2
          have hfind₁ : table_find (r₁ :: rest₁) r₁.1 = some r₁.2 := by
            unfold table_find
            have hstep : List.find? (fun t : κ × ν => decide (t.1 = r₁.1)) (r₁ :: rest₁) =
                some r₁ := by
              apply List.find?_cons_of_pos
              simp
            rw [hstep]
            rfl
          have hfind₂ : table_find (r₂ :: rest₂) r₁.1 = some r₂.2 := by
            unfold table_find
            have hstep : List.find? (fun t : κ × ν => decide (t.1 = r₁.1)) (r₂ :: rest₂) =
                some r₂ := by
              apply List.find?_cons_of_pos
              simp [hkey_head]
            rw [hstep]
            rfl
          have hval : r₁.2 = r₂.2 := by
            have := hfind r₁.1
            rw [hfind₁, hfind₂] at this
            exact Option.some_injective _ this
          have hhead : r₁ = r₂ := Prod.ext hkey_head hval
          have hnotmem₁ : r₁.1 ∉ table_keys rest₁ := by
            have := h₁
            simp only [table_keys, List.map_cons, List.nodup_cons] at this
            exact this.1
          have hnotmem₂ : r₂.1 ∉ table_keys rest₂ := by
            have := h₂
            simp only [table_keys, List.map_cons, List.nodup_cons] at this
            exact this.1
          have htail : rest₁ = rest₂ := by
            refine ih ?_ ?_ hkey_tail ?_
            · have := h₁
              simp only [table_keys, List.map_cons, List.nodup_cons] at this
              exact this.2
            · have := h₂
              simp only [table_keys, List.map_cons, List.nodup_cons] at this
              exact this.2
            · intro k
              by_cases hk : k = r₁.1
              · subst hk
                rw [table_find_eq_none_of_not_mem hnotmem₁,
                  table_find_eq_none_of_not_mem (hkey_head ▸ hnotmem₂)]
              · have hthis := hfind k
                unfold table_find at hthis ⊢
                have hn₁ : List.find? (fun t : κ × ν => decide (t.1 = k)) (r₁ :: rest₁) =
                    List.find? (fun t : κ × ν => decide (t.1 = k)) rest₁ := by
                  apply List.find?_cons_of_neg
                  simp only [decide_eq_true_eq]
                  exact fun h => hk h.symm
                have hn₂ : List.find? (fun t : κ × ν => decide (t.1 = k)) (r₂ :: rest₂) =
                    List.find? (fun t : κ × ν => decide (t.1 = k)) rest₂ := by
                  apply List.find?_cons_of_neg
                  simp only [decide_eq_true_eq]
                  rw [← hkey_head]
                  exact fun h => hk h.symm
                rw [hn₁, hn₂] at hthis
                exact hthis
          rw [hhead, htail]

/-- Re-running an identical batch leaves the table unchanged. -/
theorem upsert_batch_idem {κ ν : Type} [DecidableEq κ]
    (tbl rows : List (κ × ν)) (h : (table_keys tbl).Nodup) :
    upsert_batch (upsert_batch tbl rows) rows = upsert_batch tbl rows := by
  have hnodup : (table_keys (upsert_batch tbl rows)).Nodup :=
    table_keys_nodup_batch rows tbl h
  refine table_ext (table_keys_nodup_batch rows _ hnodup) hnodup ?_ ?_
  · rw [upsert_batch_keys]
    have hall : ∀ r ∈ rows, r.1 ∈ table_keys (upsert_batch tbl rows) := by
      intro r hr
      rw [← table_find_isSome_iff]
      rw [upsert_batch_find]
      have hsome := find_last_isSome rows r.1 (List.mem_map.2 ⟨r, hr, rfl⟩)
      obtain ⟨v, hv⟩ := Option.isSome_iff_exists.1 hsome
      rw [hv]
      rfl
    rw [new_keys_eq_nil rows _ hall]
    rw [List.append_nil]
  · intro k
    rw [upsert_batch_find]
    cases hfl : find_last rows k with
    | some v =>
        rw [upsert_batch_find, hfl]
    | none => rfl

/-- `upsert_meter_energy_batch` (database.py lines 374–393): natural key
`(meter_id, timestamp)`, value columns `(kwh_consumption, kwh_production)`. -/
def upsert_meter_energy_batch (tbl rows : List ((ℕ × ℤ) × (ℚ × ℚ))) :
    List ((ℕ × ℤ) × (ℚ × ℚ)) :=
  upsert_batch tbl rows

/-- `upsert_invoice_daily_batch` (database.py lines 396–439): natural key
`(member_id, timestamp)`, value columns `(year, month, day,
virtual_consumption, virtual_production, local_consumption,
bkw_consumption, physical_consumption, physical_production)`. -/
def upsert_invoice_daily_batch
    (tbl rows : List ((ℕ × ℤ) × (ℕ × ℕ × ℕ × ℚ × ℚ × ℚ × ℚ × ℚ × ℚ))) :
    List ((ℕ × ℤ) × (ℕ × ℕ × ℕ × ℚ × ℚ × ℚ × ℚ × ℚ × ℚ)) :=
  upsert_batch tbl rows

/-- C9 — Idempotence of the stores: for both `upsert_meter_energy_batch`
and `upsert_invoice_daily_batch`, re-running an identical batch on a table
with unique natural keys leaves the stored table identical, and the result
still has unique natural keys (no duplicate is ever inserted). -/
theorem upsert_stores_idempotent
    (tbl₁ rows₁ : List ((ℕ × ℤ) × (ℚ × ℚ)))
    (tbl₂ rows₂ : List ((ℕ × ℤ) × (ℕ × ℕ × ℕ × ℚ × ℚ × ℚ × ℚ × ℚ × ℚ)))
    (h₁ : (table_keys tbl₁).Nodup) (h₂ : (table_keys tbl₂).Nodup) :
    (upsert_meter_energy_batch (upsert_meter_energy_batch tbl₁ rows₁) rows₁ =
        upsert_meter_energy_batch tbl₁ rows₁ ∧
      (table_keys (upsert_meter_energy_batch tbl₁ rows₁)).Nodup) ∧
    (upsert_invoice_daily_batch (upsert_invoice_daily_batch tbl₂ rows₂) rows₂ =
        upsert_invoice_daily_batch tbl₂ rows₂ ∧
      (table_keys (upsert_invoice_daily_batch tbl₂ rows₂)).Nodup) :=
  ⟨⟨upsert_batch_idem tbl₁ rows₁ h₁, table_keys_nodup_batch rows₁ tbl₁ h₁⟩,
   ⟨upsert_batch_idem tbl₂ rows₂ h₂, table_keys_nodup_batch rows₂ tbl₂ h₂⟩⟩

theorem upsert_stores_idempotent_witness :
    (upsert_meter_energy_batch (upsert_meter_energy_batch
        [((1, 0), (1, 0))] [((1, 0), (2, 0)), ((2, 0), (3, 0))])
        [((1, 0), (2, 0)), ((2, 0), (3, 0))] =
      upsert_meter_energy_batch [((1, 0), (1, 0))]
        [((1, 0), (2, 0)), ((2, 0), (3, 0))] ∧
      (table_keys (upsert_meter_energy_batch [((1, 0), (1, 0))]
        [((1, 0), (2, 0)), ((2, 0), (3, 0))])).Nodup) ∧
    (upsert_invoice_daily_batch (upsert_invoice_daily_batch []
        [((7, 3), (2025, 1, 1, 0, 0, 0, 0, 0, 0))])
        [((7, 3), (2025, 1, 1, 0, 0, 0, 0, 0, 0))] =
      upsert_invoice_daily_batch []
        [((7, 3), (2025, 1, 1, 0, 0, 0, 0, 0, 0))] ∧
      (table_keys (upsert_invoice_daily_batch ([] : List ((ℕ × ℤ) ×
        (ℕ × ℕ × ℕ × ℚ × ℚ × ℚ × ℚ × ℚ × ℚ)))
        [((7, 3), (2025, 1, 1, 0, 0, 0, 0, 0, 0))])).Nodup) :=
  upsert_stores_idempotent [((1, 0), (1, 0))] [((1, 0), (2, 0)), ((2, 0), (3, 0))]
    [] [((7, 3), (2025, 1, 1, 0, 0, 0, 0, 0, 0))] (by decide) (by decide)


/-! ## CSV import and DST fall-back handling — src/csv_import.py

`_parse_german_date` (lines 168–199) parses `D.M.YYYY HH:MM:SS` as a
Europe/Zurich wall-clock time.  On the autumn fall-back day the hour
02:00–03:00 occurs twice; Python's `fold` selects the occurrence: fold 0 is
the first (CEST, UTC+2), fold 1 the second (CET, UTC+1).  We model an aware
datetime on that day by its wall-clock minute of day and its fold bit.
Python compares two datetimes that share a tzinfo by wall clock, ignoring
fold; `astimezone(utc)` uses the fold-dependent offset.

`import_csv_file` (lines 89–140) threads the previous timestamp per meter
through the parser and deduplicates into a dict keyed by
`dt.strftime("%Y-%m-%dT%H:%M:%S")` — the *naive wall-clock string*, which
discards the fold disambiguation (line 128).
-/

structure AwareDT where
  wall : ℤ
  fold : Bool
  deriving DecidableEq, Repr

/-- Europe/Zurich UTC offset in minutes on the autumn transition day, as a
function of wall-clock minute-of-day and fold (the ambiguous window is
02:00–03:00, i.e. minutes 120–180). -/
def utc_offset (dt : AwareDT) : ℤ :=
  if dt.wall < 120 then 120
  else if dt.wall < 180 then (if dt.fold then 60 else 120)
  else 60

def to_utc (dt : AwareDT) : ℤ := dt.wall - utc_offset dt

/-- The stored timestamp: `dt.strftime("%Y-%m-%dT%H:%M:%S")` keeps only the
wall-clock fields (csv_import.py line 128). -/
def stored_ts (dt : AwareDT) : ℤ := dt.wall

/-- `_parse_german_date` (lines 168–199) for a time on the fall-back day:
localise at fold 0; if the result is not later (by wall clock) than the
meter's previous timestamp and the hour is 2, reinterpret at fold 1, and if
that is still not later in UTC, push forward one hour.  Returns the
datetime and the `is_dst_fallback` flag. -/
def parse_german_date (hour minute : ℤ) (prev : Option AwareDT) :
    AwareDT × Bool :=
  let naive_wall := hour * 60 + minute
  let dt : AwareDT := ⟨naive_wall, false⟩
  match prev with
  | none => (dt, false)
  | some p =>
      if naive_wall ≤ p.wall ∧ hour = 2 then
        let dt1 : AwareDT := ⟨naive_wall, true⟩
        let dt2 := if to_utc dt1 ≤ to_utc p then AwareDT.mk (dt1.wall + 60) true else dt1
        (dt2, true)
      else (dt, false)

structure RawRow where
  hour : ℤ
  minute : ℤ
  consumption : ℚ
  production : ℚ
  deriving DecidableEq, Repr

/-- The per-meter row loop of `import_csv_file` (lines 96–140): parse each
timestamp against the previous one, then `deduped[(meter, stored)] = values`
(dict upsert, last occurrence wins). -/
def import_rows : List RawRow → Option AwareDT → List (ℤ × (ℚ × ℚ)) →
    List (ℤ × (ℚ × ℚ))
  | [], _, deduped => deduped
  | row :: rest, prev, deduped =>
      let pr := parse_german_date row.hour row.minute prev
      import_rows rest (some pr.1)
        (upsert_one deduped (stored_ts pr.1, (row.consumption, row.production)))

def import_csv_rows (rows : List RawRow) : List (ℤ × (ℚ × ℚ)) :=
  import_rows rows none []

/-- C3 — DST disambiguation (code evaluated at the failing input): for two
raw rows of the same meter both reading 02:30:00 on a fall-back day, the
parser does produce two distinct aware datetimes (fold 0 then fold 1), one
hour apart in UTC — but the stored timestamps coincide (the naive
wall-clock string drops the fold), so deduplication keeps only ONE record
instead of two. -/
theorem dst_fallback_collapse :
    (parse_german_date 2 30 none).1 = ⟨150, false⟩ ∧
    (parse_german_date 2 30 (some ⟨150, false⟩)).1 = ⟨150, true⟩ ∧
    to_utc ⟨150, true⟩ - to_utc ⟨150, false⟩ = 60 ∧
    stored_ts ⟨150, true⟩ = stored_ts ⟨150, false⟩ ∧
    import_csv_rows [⟨2, 30, 1, 0⟩, ⟨2, 30, 2, 0⟩] = [(150, (2, 0))] ∧
    (import_csv_rows [⟨2, 30, 1, 0⟩, ⟨2, 30, 2, 0⟩]).length = 1 := by
  decide



/-! ## Billable-month gating — src/quality.py

`get_billable_months` (lines 49–84) intersects `_complete_months` (lines
92–114: count of stored readings in the month over `days × 96 × #meters`
at least 0.95) with `_gapfree_months` (lines 117–151: for every meter, all
consecutive timestamps in the month 15 ± 1 minutes apart) over the months
present in the data, and returns them sorted.  Timestamps are modelled as
seconds (the ISO strings order chronologically); a month is `(year,
month)`; a meter is its id.  In exact arithmetic `actual/expected` with
`/0 = 0` coincides with the source's `ratio = … if expected > 0 else 0.0`.
-/

structure EnergyRow where
  meter_id : ℕ
  year : ℕ
  month : ℕ
  ts : ℤ
  deriving DecidableEq, Repr

def is_leap_year (y : ℕ) : Bool := y % 4 = 0 ∧ (y % 100 ≠ 0 ∨ y % 400 = 0)

/-- `calendar.monthrange(year, month)[1]`. -/
def days_in_month (y m : ℕ) : ℕ :=
  if m = 2 then (if is_leap_year y then 29 else 28)
  else if m = 4 ∨ m = 6 ∨ m = 9 ∨ m = 11 then 30
  else 31

/-- Distinct elements in first-appearance order (`SELECT DISTINCT` /
Python dict key order), relative to already-seen elements. -/
def first_occs {α : Type} [DecidableEq α] : List α → List α → List α
  | [], _ => []
  | x :: xs, seen =>
      if x ∈ seen then first_occs xs seen else x :: first_occs xs (seen ++ [x])

/-- Chronological order on `(year, month)`. -/
def ym_le (a b : ℕ × ℕ) : Bool := decide (a.1 < b.1 ∨ (a.1 = b.1 ∧ a.2 ≤ b.2))

/-- Readings stored for the month, across all meters
(`_complete_months`' COUNT(*)). -/
def month_row_count (rows : List EnergyRow) (y m : ℕ) : ℕ :=
  (rows.filter fun r => decide (r.year = y ∧ r.month = m)).length

/-- A meter's timestamps within a month, in timestamp order. -/
def meter_month_ts (rows : List EnergyRow) (mid y m : ℕ) : List ℤ :=
  List.mergeSort
    ((rows.filter fun r => decide (r.meter_id = mid ∧ r.year = y ∧ r.month = m)).map
      fun r => r.ts)
    (fun a b => decide (a ≤ b))

/-- `abs(diff_minutes - 15.0) > 1.0` for some consecutive pair
(`_gapfree_months` lines 143–149; timestamps in seconds). -/
def has_gap (ts : List ℤ) : Bool :=
  (ts.zip ts.tail).any fun p => decide (1 < |((p.2 - p.1 : ℚ)) / 60 - 15|)

/-- The completeness test of `_complete_months` (ratio ≥ 0.95). -/
def completeness_ok (rows : List EnergyRow) (meters : List ℕ) (y m : ℕ) : Prop :=
  95/100 ≤ ((month_row_count rows y m : ℚ) /
    ((days_in_month y m * 96 * meters.length : ℕ) : ℚ))

instance (rows : List EnergyRow) (meters : List ℕ) (y m : ℕ) :
    Decidable (completeness_ok rows meters y m) := by
  unfold completeness_ok; infer_instance

/-- The gap-freedom test of `_gapfree_months`: no meter has a gap. -/
def gapfree_ok (rows : List EnergyRow) (meters : List ℕ) (y m : ℕ) : Prop :=
  ∀ mid ∈ meters, has_gap (meter_month_ts rows mid y m) = false

instance (rows : List EnergyRow) (meters : List ℕ) (y m : ℕ) :
    Decidable (gapfree_ok rows meters y m) := by
  unfold gapfree_ok; infer_instance

/-- `get_billable_months` (quality.py lines 49–84): the months present in
the data that are both complete and gap-free, sorted. -/
def get_billable_months (rows : List EnergyRow) (meters : List ℕ) :
    List (ℕ × ℕ) :=
  let all_months := first_occs (rows.map fun r => (r.year, r.month)) []
  if all_months = [] ∨ meters = [] then []
  else
    List.mergeSort
      (all_months.filter fun ym =>
        decide (completeness_ok rows meters ym.1 ym.2) &&
        decide (gapfree_ok rows meters ym.1 ym.2))
      ym_le

theorem first_occs_mem {α : Type} [DecidableEq α] :
    ∀ (l seen : List α) (x : α), x ∈ first_occs l seen ↔ x ∈ l ∧ x ∉ seen := by
  intro l
  induction l with
  | nil => intro seen x; simp [first_occs]
  | cons a xs ih =>
      intro seen x
      unfold first_occs
      by_cases ha : a ∈ seen
      · rw [if_pos ha, ih]
        constructor
        · rintro ⟨hx, hns⟩
          exact ⟨List.mem_cons_of_mem a hx, hns⟩
        · rintro ⟨hx, hns⟩
          rcases List.mem_cons.1 hx with rfl | hx'
          · exact absurd ha hns
          · exact ⟨hx', hns⟩
      · rw [if_neg ha]
        constructor
        · intro hx
          rcases List.mem_cons.1 hx with rfl | hx'
          · exact ⟨List.mem_cons_self _ _, ha⟩
          · obtain ⟨h1, h2⟩ := (ih (seen ++ [a]) x).1 hx'
            refine ⟨List.mem_cons_of_mem a h1, fun hs => h2 ?_⟩
            exact List.mem_append_left [a] hs
        · rintro ⟨hx, hns⟩
          rcases List.mem_cons.1 hx with rfl | hx'
          · exact List.mem_cons_self _ _
          · by_cases hxa : x = a
            · subst hxa
              exact List.mem_cons_self _ _
            · refine List.mem_cons_of_mem a ((ih (seen ++ [a]) x).2 ⟨hx', ?_⟩)
              intro hs
              rcases List.mem_append.1 hs with h | h
              · exact hns h
              · exact hxa (by simpa using h)

theorem month_row_count_pos {rows : List EnergyRow} {y m : ℕ}
    (h : 0 < month_row_count rows y m) :
    (y, m) ∈ rows.map fun r => (r.year, r.month) := by
  unfold month_row_count at h
  rw [List.length_pos] at h
  obtain ⟨r, hr⟩ := List.exists_mem_of_ne_nil _ h
  have hmem := List.mem_of_mem_filter hr
  have hcond := List.of_mem_filter hr
  have hcond' : r.year = y ∧ r.month = m := of_decide_eq_true hcond
  exact List.mem_map.2 ⟨r, hmem, by rw [hcond'.1, hcond'.2]⟩

/-- C5 — Billable-month gating: a `(year, month)` is billable iff the
month's reading count is at least 0.95 of `days × 96 × #meters` AND no
meter has consecutive readings in the month more than 1 minute away from
15-minute spacing.  In particular a month below the threshold (e.g. at
94%) is excluded even if gap-free. -/
theorem billable_month_gating (rows : List EnergyRow) (meters : List ℕ)
    (y m : ℕ) :
    (y, m) ∈ get_billable_months rows meters ↔
      (95/100 ≤ ((month_row_count rows y m : ℚ) /
          ((days_in_month y m * 96 * meters.length : ℕ) : ℚ)) ∧
        ∀ mid ∈ meters, has_gap (meter_month_ts rows mid y m) = false) := by
  unfold get_billable_months
  by_cases hcase : first_occs (rows.map fun r => (r.year, r.month)) [] = [] ∨ meters = []
  · rw [if_pos hcase]
    simp only [List.not_mem_nil, false_iff]
    rintro ⟨h1, -⟩
    rcases hcase with hnil | hnil
    · have hall : ∀ x ∈ rows.map fun r => (r.year, r.month), x ∈ ([] : List (ℕ × ℕ)) := by
        intro x hx
        have := (first_occs_mem (rows.map fun r => (r.year, r.month)) [] x).2
          ⟨hx, List.not_mem_nil x⟩
        rw [hnil] at this
        exact this
      have hmap : (rows.map fun r => (r.year, r.month)) = [] := by
        rw [List.eq_nil_iff_forall_not_mem]
        intro x hx
        exact List.not_mem_nil x (hall x hx)
      have hrows : rows = [] := List.map_eq_nil.1 hmap
      subst hrows
      have hcount : month_row_count [] y m = 0 := rfl
      rw [hcount] at h1
      norm_num at h1
    · subst hnil
      simp only [List.length_nil, Nat.mul_zero, Nat.cast_zero, div_zero] at h1
      norm_num at h1
  · rw [if_neg hcase]
    rw [List.mem_mergeSort, List.mem_filter]
    constructor
    · rintro ⟨hmem, hcond⟩
      rw [Bool.and_eq_true] at hcond
      exact ⟨of_decide_eq_true hcond.1, of_decide_eq_true hcond.2⟩
    · rintro ⟨h1, h2⟩
      have hpos : 0 < month_row_count rows y m := by
        by_contra hzero
        push_neg at hzero
        have hcnt : month_row_count rows y m = 0 := Nat.le_zero.1 hzero
        rw [hcnt] at h1
        norm_num at h1
      refine ⟨?_, ?_⟩
      · exact (first_occs_mem _ [] (y, m)).2
          ⟨month_row_count_pos hpos, List.not_mem_nil _⟩
      · rw [Bool.and_eq_true]
        exact ⟨decide_eq_true h1, decide_eq_true h2⟩

theorem billable_month_gating_witness :
    ((2025, 1) ∈ get_billable_months [] [1]) ↔
      (95/100 ≤ ((month_row_count [] 2025 1 : ℚ) /
          ((days_in_month 2025 1 * 96 * [1].length : ℕ) : ℚ)) ∧
        ∀ mid ∈ [1], has_gap (meter_month_ts [] mid 2025 1) = false) :=
  billable_month_gating [] [1] 2025 1



/-! ## Billing — src/billing.py, `calculate_bills_for_period`

Embedded under its default optional arguments: no `member_configs` (so no
fees), `vat_rate = 0` (so `vat_mult = 1` and every incl-VAT amount equals
the rounded exclusive amount), `show_daily_detail = False`.  Dates are
`(year, month, day)` triples compared lexicographically; agreement rates
are `Option ℚ` with Python falsiness `x if obj and x else 0.0` — which
maps `none` and `some 0` alike to `0`, i.e. `Option.getD 0`.
-/

structure Member where
  id : ℕ
  is_host : Bool
  deriving DecidableEq, Repr, Inhabited

abbrev Date := ℕ × ℕ × ℕ

def date_lt (a b : Date) : Bool :=
  decide (a.1 < b.1 ∨ (a.1 = b.1 ∧ (a.2.1 < b.2.1 ∨ (a.2.1 = b.2.1 ∧ a.2.2 < b.2.2))))

structure Agreement where
  type : String
  period_start : Date
  period_end : Date
  rate : Option ℚ
  bkw_rate : Option ℚ
  bkw_sell_rate : Option ℚ
  deriving DecidableEq, Repr

/-- `_find_host_info_agreement` (billing.py lines 393–402): the first
`host_info` agreement with `a_start < period_end` and `a_end ≥
period_start`. -/
def find_host_info_agreement (agreements : List Agreement) (ps pe : Date) :
    Option Agreement :=
  agreements.find? fun a =>
    decide (a.type = "host_info") && date_lt a.period_start pe &&
      !(date_lt a.period_end ps)

/-- One `invoice_daily` row as read back by billing (the five kWh columns
that `calculate_bills_for_period` aggregates). -/
structure InvoiceDailyRec where
  member_id : ℕ
  local_consumption : ℚ
  bkw_consumption : ℚ
  physical_consumption : ℚ
  physical_production : ℚ
  virtual_production : ℚ
  deriving DecidableEq, Repr, Inhabited

/-- `member_totals[mid][field]` (lines 137–152): sum of a field over the
period's records of one member. -/
def member_total (recs : List InvoiceDailyRec) (mid : ℕ)
    (f : InvoiceDailyRec → ℚ) : ℚ :=
  ((recs.filter fun r => decide (r.member_id = mid)).map f).sum

def find_member (members : List Member) (mid : ℕ) : Option Member :=
  members.find? fun mb => decide (mb.id = mid)

/-- `non_host_local_consumption` (lines 154–159): local consumption summed
over the known, non-host members that appear in the period's records. -/
def non_host_local_consumption (members : List Member)
    (recs : List InvoiceDailyRec) : ℚ :=
  (((first_occs (recs.map fun r => r.member_id) []).filter fun mid =>
      match find_member members mid with
      | some mb => !mb.is_host
      | none => false).map
    fun mid => member_total recs mid fun r => r.local_consumption).sum

structure MemberBill where
  member_id : ℕ
  total_consumption_kwh : ℚ
  local_consumption_kwh : ℚ
  bkw_consumption_kwh : ℚ
  total_production_kwh : ℚ
  local_sell_kwh : ℚ
  bkw_export_kwh : ℚ
  local_cost : ℚ
  bkw_cost : ℚ
  total_cost : ℚ
  local_sell_revenue : ℚ
  bkw_export_revenue : ℚ
  total_revenue : ℚ
  grand_total : ℚ
  deriving DecidableEq, Repr, Inhabited

/-- `period_start` / `period_end` (lines 122–126): first day of the first
month to first day of the month after the last month. -/
def period_bounds (period_months : List (ℕ × ℕ)) : Date × Date :=
  match period_months with
  | [] => ((0, 0, 0), (0, 0, 0))
  | fm :: rest =>
      let lm := List.getLastD rest fm
      ((fm.1, fm.2, 1),
        if lm.2 = 12 then (lm.1 + 1, 1, 1) else (lm.1, lm.2 + 1, 1))

/-- The three collective rates for the period (lines 128–131): all zero
when no host_info agreement overlaps; a missing or zero (falsy) rate field
is zero. -/
def period_rates (agreements : List Agreement)
    (period_months : List (ℕ × ℕ)) : ℚ × ℚ × ℚ :=
  let pb := period_bounds period_months
  match find_host_info_agreement agreements pb.1 pb.2 with
  | none => (0, 0, 0)
  | some a => (a.rate.getD 0, a.bkw_rate.getD 0, a.bkw_sell_rate.getD 0)

/-- One member's bill (lines 163–360, defaults: no fees, zero VAT). -/
def build_bill (collective_local_rate bkw_rate bkw_sell_rate non_host_local : ℚ)
    (all_daily : List InvoiceDailyRec) (mid : ℕ) (mem : Member) : MemberBill :=
  let local_consumption := member_total all_daily mid fun r => r.local_consumption
  let bkw_consumption_kwh := member_total all_daily mid fun r => r.bkw_consumption
  let physical_consumption := member_total all_daily mid fun r => r.physical_consumption
  let physical_production := member_total all_daily mid fun r => r.physical_production
  let virtual_production := member_total all_daily mid fun r => r.virtual_production
  let local_rate := if mem.is_host then 0 else collective_local_rate
  let bkw_cost := bkw_consumption_kwh * bkw_rate
  let local_cost := local_consumption * local_rate
  let total_cost := bkw_cost + local_cost
  let bkw_export_kwh := if 0 < physical_production then virtual_production else 0
  let bkw_export_revenue :=
    if 0 < physical_production then virtual_production * bkw_sell_rate else 0
  let local_sell_kwh := if 0 < physical_production then non_host_local else 0
  let local_sell_revenue :=
    if 0 < physical_production then non_host_local * collective_local_rate else 0
  let total_revenue :=
    if 0 < physical_production then bkw_export_revenue + local_sell_revenue else 0
  let local_cost_r := round2 local_cost
  let bkw_cost_r := round2 bkw_cost
  let total_cost_incl_vat := local_cost_r + bkw_cost_r
  { member_id := mid
    total_consumption_kwh := round0 physical_consumption
    local_consumption_kwh := round0 local_consumption
    bkw_consumption_kwh := round0 bkw_consumption_kwh
    total_production_kwh := round0 physical_production
    local_sell_kwh := round0 local_sell_kwh
    bkw_export_kwh := round0 bkw_export_kwh
    local_cost := local_cost_r
    bkw_cost := bkw_cost_r
    total_cost := round2 total_cost
    local_sell_revenue := round2 local_sell_revenue
    bkw_export_revenue := round2 bkw_export_revenue
    total_revenue := round2 total_revenue
    grand_total := round2 (total_cost_incl_vat + 0 - total_revenue) }

/-- `calculate_bills_for_period` (billing.py lines 76–373) under default
optional arguments; `records_by_month` stands for
`get_invoice_daily_for_month`. -/
def calculate_bills_for_period (members : List Member)
    (agreements : List Agreement)
    (records_by_month : ℕ × ℕ → List InvoiceDailyRec)
    (period_months : List (ℕ × ℕ)) : List MemberBill :=
  if period_months = [] then []
  else
    let all_daily := (period_months.map records_by_month).flatten
    if all_daily = [] then []
    else
      let rates := period_rates agreements period_months
      let member_ids := first_occs (all_daily.map fun r => r.member_id) []
      let non_host_local := non_host_local_consumption members all_daily
      member_ids.filterMap fun mid =>
        match find_member members mid with
        | none => none
        | some mem =>
            some (build_bill rates.1 rates.2.1 rates.2.2 non_host_local all_daily mid mem)

theorem filterMap_build_map_id (members : List Member)
    (clr br bsr nhl : ℚ) (all_daily : List InvoiceDailyRec) :
    ∀ l : List ℕ,
      ((l.filterMap fun mid =>
          match find_member members mid with
          | none => none
          | some mem => some (build_bill clr br bsr nhl all_daily mid mem)).map
        fun b => b.member_id) =
      l.filter fun mid => (find_member members mid).isSome := by
  intro l
  induction l with
  | nil => rfl
  | cons mid rest ih =>
      rw [List.filterMap_cons, List.filter_cons]
      cases hfm : find_member members mid with
      | none =>
          simp only [hfm]
          rw [ih]
          rfl
      | some mem =>
          simp only [hfm]
          rw [List.map_cons, ih]
          rfl

/-- C8 — Billing degrades instead of failing: a period whose months have no
allocation records yields an empty bill list (no error), and when no
host_info agreement overlaps the period the local, grid-buy and grid-sell
rates are all 0 and there is still exactly one bill, in order, per known
member appearing in the period's allocation records. -/
theorem billing_degrades_gracefully (members : List Member)
    (agreements : List Agreement)
    (records_by_month : ℕ × ℕ → List InvoiceDailyRec)
    (period_months : List (ℕ × ℕ)) :
    ((∀ ym ∈ period_months, records_by_month ym = []) →
      calculate_bills_for_period members agreements records_by_month period_months = []) ∧
    (find_host_info_agreement agreements (period_bounds period_months).1
        (period_bounds period_months).2 = none →
      period_rates agreements period_months = (0, 0, 0) ∧
      ((calculate_bills_for_period members agreements records_by_month
          period_months).map fun b => b.member_id) =
        (first_occs (((period_months.map records_by_month).flatten).map
            fun r => r.member_id) []).filter
          fun mid => (find_member members mid).isSome) := by
  constructor
  · intro hempty
    unfold calculate_bills_for_period
    by_cases hpm : period_months = []
    · rw [if_pos hpm]
    · rw [if_neg hpm]
      have hflat : (period_months.map records_by_month).flatten = [] := by
        rw [List.flatten_eq_nil_iff]
        intro x hx
        rcases List.mem_map.1 hx with ⟨ym, hym, rfl⟩
        exact hempty ym hym
      simp only [hflat]
      rfl
  · intro hnone
    have hrates : period_rates agreements period_months = (0, 0, 0) := by
      unfold period_rates
      simp only [hnone]
    refine ⟨hrates, ?_⟩
    unfold calculate_bills_for_period
    by_cases hpm : period_months = []
    · rw [if_pos hpm]
      subst hpm
      rfl
    · rw [if_neg hpm]
      by_cases hflat : (period_months.map records_by_month).flatten = []
      · simp only [hflat]
        rfl
      · simp only [if_neg hflat]
        exact filterMap_build_map_id members _ _ _ _ _ _

theorem billing_degrades_gracefully_witness :
    calculate_bills_for_period [⟨1, false⟩] []
        (fun _ => ([] : List InvoiceDailyRec)) [(2025, 1)] = [] ∧
    period_rates [] [(2025, 1)] = (0, 0, 0) :=
  ⟨(billing_degrades_gracefully [⟨1, false⟩] [] (fun _ => []) [(2025, 1)]).1
      (fun _ _ => rfl),
    ((billing_degrades_gracefully [⟨1, false⟩] [] (fun _ => []) [(2025, 1)]).2 rfl).1⟩



/-! ## Interval records and producer attribution — allocation.py lines
193–215 and billing.py lines 181–199 (claim C10)

At each interval `allocate_month` sets `virtual_production = max(0,
total production − total consumption)` and writes that SAME value on the
record of every member present in `member_production` (i.e. with a
physical production meter reading at this interval) — not a per-producer
share.  An interval member is modelled by its summed consumption, its
summed production, and whether it has a production meter reading.
-/

structure IntervalMember where
  cons : ℚ
  mprod : ℚ
  has_producer : Bool
  deriving DecidableEq, Repr, Inhabited

def interval_production (ms : List IntervalMember) : ℚ :=
  (ms.map fun mb => mb.mprod).sum

def interval_consumption (ms : List IntervalMember) : ℚ :=
  (ms.map fun mb => mb.cons).sum

/-- `virtual_production = max(0.0, physical_production -
physical_consumption)` (allocation.py line 194). -/
def interval_surplus (ms : List IntervalMember) : ℚ :=
  max 0 (interval_production ms - interval_consumption ms)

/-- One `InvoiceDaily` record as built by `allocate_month`
(lines 200–215), member/timestamp columns omitted. -/
structure InvoiceDaily where
  virtual_consumption : ℚ
  virtual_production : ℚ
  local_consumption : ℚ
  bkw_consumption : ℚ
  physical_consumption : ℚ
  physical_production : ℚ
  deriving DecidableEq, Repr, Inhabited

/-- The records `allocate_month` emits for one timestamp group
(lines 193–215), one per member, fields rounded to 6 decimals. -/
def build_records (ms : List IntervalMember) (fuel : ℕ) : List InvoiceDaily :=
  (ms.zip ((allocate_interval (ms.map fun mb => mb.cons)
      (interval_production ms) fuel).zip
    (member_bkw (ms.map fun mb => mb.cons)
      (allocate_interval (ms.map fun mb => mb.cons)
        (interval_production ms) fuel)))).map
    fun p =>
      { virtual_consumption := round6 p.2.2
        virtual_production := round6 (if p.1.has_producer then interval_surplus ms else 0)
        local_consumption := round6 p.2.1
        bkw_consumption := round6 p.2.2
        physical_consumption := round6 p.1.cons
        physical_production := round6 p.1.mprod }

theorem allocation_loop_length (n : ℕ) : ∀ st : AllocState,
    (allocation_loop n st).entries.length = st.entries.length := by
  induction n with
  | zero => intro st; rfl
  | succ m ih =>
      intro st
      by_cases hcond : loop_cond st
      · rw [allocation_loop_step hcond, ih, one_pass_length]
      · rw [allocation_loop_not_cond hcond]

theorem allocate_interval_length (cons : List ℚ) (production : ℚ) (fuel : ℕ) :
    (allocate_interval cons production fuel).length = cons.length := by
  unfold allocate_interval
  by_cases h1 : 0 < cons.sum ∧ cons.sum ≤ production
  · rw [if_pos h1]
  · rw [if_neg h1]
    by_cases h2 : 0 < cons.sum ∧ 0 < production
    · rw [if_pos h2, List.length_map, allocation_loop_length]
      simp [init_state]
    · rw [if_neg h2, List.length_map]

theorem zip_map_proj {α β γ : Type} (f : α → γ) (g : α × β → γ)
    (hg : ∀ p, g p = f p.1) :
    ∀ (l₁ : List α) (l₂ : List β), l₁.length ≤ l₂.length →
      (l₁.zip l₂).map g = l₁.map f := by
  intro l₁
  induction l₁ with
  | nil => intro l₂ h; rfl
  | cons a rest ih =>
      intro l₂ h
      cases l₂ with
      | nil => simp at h
      | cons b r₂ =>
          simp only [List.zip_cons_cons, List.map_cons]
          rw [hg, ih r₂ (by simpa using h)]

/-- Each record carries the whole surplus iff its member has a production
reading, positionally. -/
theorem build_records_virtual_production (ms : List IntervalMember) (fuel : ℕ) :
    ((build_records ms fuel).map fun r => r.virtual_production) =
      ms.map fun mb => round6 (if mb.has_producer then interval_surplus ms else 0) := by
  unfold build_records
  rw [List.map_map]
  have hcomp : ((fun r : InvoiceDaily => r.virtual_production) ∘
      fun p : IntervalMember × (ℚ × ℚ) =>
        ({ virtual_consumption := round6 p.2.2
           virtual_production := round6 (if p.1.has_producer then interval_surplus ms else 0)
           local_consumption := round6 p.2.1
           bkw_consumption := round6 p.2.2
           physical_consumption := round6 p.1.cons
           physical_production := round6 p.1.mprod } : InvoiceDaily)) =
      fun p : IntervalMember × (ℚ × ℚ) =>
        round6 (if p.1.has_producer then interval_surplus ms else 0) := rfl
  rw [hcomp]
  have hlocs : (allocate_interval (ms.map fun mb => mb.cons)
      (interval_production ms) fuel).length = ms.length := by
    rw [allocate_interval_length, List.length_map]
  have hbkw : (member_bkw (ms.map fun mb => mb.cons)
      (allocate_interval (ms.map fun mb => mb.cons)
        (interval_production ms) fuel)).length = ms.length := by
    unfold member_bkw
    rw [List.length_zipWith, hlocs, List.length_map]
    simp
  have hlen : ms.length ≤ ((allocate_interval (ms.map fun mb => mb.cons)
      (interval_production ms) fuel).zip
    (member_bkw (ms.map fun mb => mb.cons)
      (allocate_interval (ms.map fun mb => mb.cons)
        (interval_production ms) fuel))).length := by
    rw [List.length_zip, hlocs, hbkw]
    simp
  exact zip_map_proj
    (fun mb : IntervalMember =>
      round6 (if mb.has_producer then interval_surplus ms else 0))
    (fun p : IntervalMember × (ℚ × ℚ) =>
      round6 (if p.1.has_producer then interval_surplus ms else 0))
    (fun p => rfl) ms _ hlen

theorem sum_map_round6_ite (s : ℚ) :
    ∀ ms : List IntervalMember,
      (ms.map fun mb => round6 (if mb.has_producer then s else 0)).sum =
        (ms.countP fun mb => mb.has_producer) • round6 s := by
  intro ms
  induction ms with
  | nil => simp
  | cons mb rest ih =>
      rw [List.map_cons, List.sum_cons, ih, List.countP_cons]
      cases hmb : mb.has_producer
      · rw [if_neg (by simp [hmb])]
        rw [round6_zero]
        simp [hmb]
      · rw [if_pos (by simp [hmb])]
        rw [if_pos (by simp [hmb])]
        rw [succ_nsmul]
        ring

theorem build_bill_member_id (clr br bsr nhl : ℚ)
    (all_daily : List InvoiceDailyRec) (mid : ℕ) (mem : Member) :
    (build_bill clr br bsr nhl all_daily mid mem).member_id = mid := rfl

theorem build_bill_bkw_export (clr br bsr nhl : ℚ)
    (all_daily : List InvoiceDailyRec) (mid : ℕ) (mem : Member) :
    (build_bill clr br bsr nhl all_daily mid mem).bkw_export_kwh =
      round0 (if 0 < member_total all_daily mid (fun r => r.physical_production)
        then member_total all_daily mid (fun r => r.virtual_production) else 0) := rfl

theorem build_bill_local_sell (clr br bsr nhl : ℚ)
    (all_daily : List InvoiceDailyRec) (mid : ℕ) (mem : Member) :
    (build_bill clr br bsr nhl all_daily mid mem).local_sell_kwh =
      round0 (if 0 < member_total all_daily mid (fun r => r.physical_production)
        then nhl else 0) := rfl

theorem calculate_bills_eq (members : List Member) (agreements : List Agreement)
    (records_by_month : ℕ × ℕ → List InvoiceDailyRec)
    (period_months : List (ℕ × ℕ)) (hpm : period_months ≠ [])
    (hflat : (period_months.map records_by_month).flatten ≠ []) :
    calculate_bills_for_period members agreements records_by_month period_months =
      (first_occs (((period_months.map records_by_month).flatten).map
          fun r => r.member_id) []).filterMap
        fun mid =>
          match find_member members mid with
          | none => none
          | some mem => some (build_bill
              (period_rates agreements period_months).1
              (period_rates agreements period_months).2.1
              (period_rates agreements period_months).2.2
              (non_host_local_consumption members
                ((period_months.map records_by_month).flatten))
              ((period_months.map records_by_month).flatten) mid mem) := by
  unfold calculate_bills_for_period
  rw [if_neg hpm]
  dsimp only
  rw [if_neg hflat]

/-- C10 — Surplus attribution: every member with a physical production
reading at an interval gets the WHOLE interval surplus `max(0, production −
consumption)` (rounded to 6 decimals) as its record's virtual_production,
so with two or more producing members and a genuinely positive surplus the
per-member virtual_production fields sum to strictly more than the actual
surplus; downstream, every billed member with positive physical production
is billed grid-export kWh equal to its summed virtual_production and
"sold locally" kWh equal to the total non-host local consumption, host or
not. -/
theorem virtual_production_attribution :
    (∀ (ms : List IntervalMember) (fuel : ℕ),
      ((build_records ms fuel).map fun r => r.virtual_production) =
        ms.map fun mb => round6 (if mb.has_producer then interval_surplus ms else 0)) ∧
    (∀ (ms : List IntervalMember) (fuel : ℕ),
      2 ≤ ms.countP (fun mb => mb.has_producer) →
      BALANCE_EPSILON < interval_surplus ms →
      interval_surplus ms <
        ((build_records ms fuel).map fun r => r.virtual_production).sum) ∧
    (∀ (members : List Member) (agreements : List Agreement)
      (records_by_month : ℕ × ℕ → List InvoiceDailyRec)
      (period_months : List (ℕ × ℕ)) (b : MemberBill),
      b ∈ calculate_bills_for_period members agreements records_by_month
        period_months →
      0 < member_total ((period_months.map records_by_month).flatten) b.member_id
        (fun r => r.physical_production) →
      b.bkw_export_kwh = round0 (member_total
          ((period_months.map records_by_month).flatten) b.member_id
          fun r => r.virtual_production) ∧
      b.local_sell_kwh = round0 (non_host_local_consumption members
          ((period_months.map records_by_month).flatten))) := by
  refine ⟨build_records_virtual_production, ?_, ?_⟩
  · intro ms fuel hcnt hsur
    rw [build_records_virtual_production, sum_map_round6_ite]
    have hs0 : 0 ≤ interval_surplus ms := le_max_left 0 _
    have hr6 : 0 ≤ round6 (interval_surplus ms) := round6_nonneg hs0
    have hclose := round6_sub_le (interval_surplus ms)
    rw [abs_le] at hclose
    have h2le : (2 : ℕ) • round6 (interval_surplus ms) ≤
        (ms.countP fun mb => mb.has_producer) • round6 (interval_surplus ms) :=
      nsmul_le_nsmul_left hr6 hcnt
    have h2eq : (2 : ℕ) • round6 (interval_surplus ms) =
        round6 (interval_surplus ms) + round6 (interval_surplus ms) := two_nsmul _
    have hbal : BALANCE_EPSILON = 1/1000000 := rfl
    rw [hbal] at hsur
    have hgt : interval_surplus ms <
        round6 (interval_surplus ms) + round6 (interval_surplus ms) := by
      linarith [hclose.1]
    calc interval_surplus ms
        < round6 (interval_surplus ms) + round6 (interval_surplus ms) := hgt
      _ = (2 : ℕ) • round6 (interval_surplus ms) := h2eq.symm
      _ ≤ _ := h2le
  · intro members agreements records_by_month period_months b hmem hpp
    by_cases hpm : period_months = []
    · rw [hpm] at hmem
      simp [calculate_bills_for_period] at hmem
    · by_cases hflat : (period_months.map records_by_month).flatten = []
      · unfold calculate_bills_for_period at hmem
        rw [if_neg hpm] at hmem
        dsimp only at hmem
        rw [if_pos hflat] at hmem
        simp at hmem
      · rw [calculate_bills_eq members agreements records_by_month period_months
          hpm hflat] at hmem
        rcases List.mem_filterMap.1 hmem with ⟨mid, hmid, hbuild⟩
        cases hfm : find_member members mid with
        | none => rw [hfm] at hbuild; simp at hbuild
        | some mem =>
            rw [hfm] at hbuild
            simp only [Option.some.injEq] at hbuild
            subst hbuild
            rw [build_bill_member_id] at hpp
            rw [build_bill_bkw_export, build_bill_local_sell, build_bill_member_id]
            rw [if_pos hpp, if_pos hpp]
            exact ⟨rfl, rfl⟩

unseal Rat.mul Rat.inv Rat.add Rat.sub in
theorem virtual_production_attribution_witness :
    interval_surplus [⟨1, 3, true⟩, ⟨0, 2, true⟩] <
      ((build_records [⟨1, 3, true⟩, ⟨0, 2, true⟩] 0).map
        fun r => r.virtual_production).sum ∧
    (((calculate_bills_for_period [⟨1, false⟩] []
          (fun _ => [⟨1, 0, 0, 0, 5, 4⟩]) [(2025, 1)]).headD default).bkw_export_kwh =
        round0 (member_total (([(2025, 1)].map
            fun _ => [⟨1, 0, 0, 0, 5, 4⟩]).flatten)
          ((calculate_bills_for_period [⟨1, false⟩] []
            (fun _ => [⟨1, 0, 0, 0, 5, 4⟩]) [(2025, 1)]).headD default).member_id
          fun r => r.virtual_production) ∧
      ((calculate_bills_for_period [⟨1, false⟩] []
          (fun _ => [⟨1, 0, 0, 0, 5, 4⟩]) [(2025, 1)]).headD default).local_sell_kwh =
        round0 (non_host_local_consumption [⟨1, false⟩]
          (([(2025, 1)].map fun _ => [⟨1, 0, 0, 0, 5, 4⟩]).flatten))) :=
  ⟨virtual_production_attribution.2.1 [⟨1, 3, true⟩, ⟨0, 2, true⟩] 0
      (by decide) (by decide),
    virtual_production_attribution.2.2 [⟨1, false⟩] []
      (fun _ => [⟨1, 0, 0, 0, 5, 4⟩]) [(2025, 1)]
      ((calculate_bills_for_period [⟨1, false⟩] []
        (fun _ => [⟨1, 0, 0, 0, 5, 4⟩]) [(2025, 1)]).headD default)
      (by decide) (by decide)⟩


end Vzev
